import Mathlib

/-!
Verification of the chess-on-console rules engine.

This file gives a shallow embedding of the engine's Python source
(`src/models/board.py`, `src/models/piece.py`, `src/models/pieces/standard.py`,
`src/models/game.py`, `src/models/game_modes/standard.py`,
`src/helpers/constants.py`, `src/helpers/functions.py`) and proves properties
of the embedded definitions.

Modelling conventions:
* Python strings are `List Char`; a `Position` is a pair of integers where the
  column is the value of `col_to_int` (`ord(col) - 97`), so column `'a'` is `0`
  and arithmetic on positions mirrors `Position.__add__` / `__sub__` exactly.
  `Position.__eq__` compares the rendered strings; for single-character columns
  and integer rows this coincides with structural equality of the pair.
* Python list subscription (`matrix[i]`) is modelled by `pyIdx` / `pyGet` /
  `pySet`, including negative-index aliasing and `IndexError` out of range.
* Exceptions are modelled with `Except Err`; each Python `raise` site maps to
  the corresponding constructor.
* Mutable `Piece` objects are modelled by values threaded through the state;
  the board's `kings` dictionary entries (which alias the king objects) are
  kept in sync whenever the aliased king value is mutated.
-/

namespace Chess

inductive Color where
  | white
  | black
deriving DecidableEq

inductive Kind where
  | pawn
  | knight
  | bishop
  | rook
  | queen
  | king
deriving DecidableEq

inductive Err where
  | indexError
  | keyError
  | valueError
  | assertionError
  | runtimeError
  | invalidFen
  | invalidMoveInput
  | illegalMove
deriving DecidableEq

/-- `helpers.constants.Position` with `col` already passed through
`col_to_int` (`ord - 97`): column `'a'` is `0`, `'h'` is `7`, the
out-of-board character <backtick> is `-1` and `'i'` is `8`. -/
structure Pos where
  col : Int
  row : Int
deriving DecidableEq

/-- `Position.__add__`: `Position(int_to_col(col_to_int(col) + dx), row + dy)`. -/
def Pos.add (p : Pos) (dx dy : Int) : Pos := ⟨p.col + dx, p.row + dy⟩

/-- `Position.__sub__`. -/
def Pos.sub (p : Pos) (dx dy : Int) : Pos := ⟨p.col - dx, p.row - dy⟩

/-- `Position.diff`: `(col_to_int(self.col) - col_to_int(other.col), self.row - other.row)`. -/
def Pos.diff (p q : Pos) : Int × Int := (p.col - q.col, p.row - q.row)

/-- A piece object: its class (`kind`), `color`, `pos` and `legal_moves`
fields.  Python dataclass equality compares the class and all fields, which is
structural equality here. -/
structure Piece where
  kind : Kind
  color : Color
  pos : Pos
  legal : List Pos
deriving DecidableEq

/-- `str(piece)`: first letter of the class name, upper case for White;
`Knight.__str__` overrides this with `'N'`/`'n'`. -/
def pieceChar (p : Piece) : Char :=
  match p.kind, p.color with
  | .pawn, .white => 'P'
  | .pawn, .black => 'p'
  | .knight, .white => 'N'
  | .knight, .black => 'n'
  | .bishop, .white => 'B'
  | .bishop, .black => 'b'
  | .rook, .white => 'R'
  | .rook, .black => 'r'
  | .queen, .white => 'Q'
  | .queen, .black => 'q'
  | .king, .white => 'K'
  | .king, .black => 'k'

/-- `str(piece).upper()`. -/
def pieceCharUpper (p : Piece) : Char :=
  match p.kind with
  | .pawn => 'P'
  | .knight => 'N'
  | .bishop => 'B'
  | .rook => 'R'
  | .queen => 'Q'
  | .king => 'K'

/-- Resolve a Python list index: negative indices count from the end, anything
out of `[-n, n)` is an `IndexError` (`none`). -/
def pyIdx (n : Nat) (i : Int) : Option Nat :=
  let j : Int := if i < 0 then i + n else i
  if 0 ≤ j ∧ j < n then some j.toNat else none

/-- Python list subscription `l[i]`. -/
def pyGet {α : Type} (l : List α) (i : Int) : Except Err α :=
  match pyIdx l.length i with
  | some k =>
    match l.get? k with
    | some a => .ok a
    | none => .error .indexError
  | none => .error .indexError

/-- Python list item assignment `l[i] = a`. -/
def pySet {α : Type} (l : List α) (i : Int) (a : α) : Except Err (List α) :=
  match pyIdx l.length i with
  | some k => .ok (l.set k a)
  | none => .error .indexError

/-- The board state (`Board` dataclass).  The `kings` dictionary is modelled by
two optional fields; `move_history` stores position-signature strings. -/
structure Board where
  matrix : List (List (Option Piece))
  kingW : Option Piece
  kingB : Option Piece
  turn : List Char
  en_passant : Option Pos
  castling : List Char
  move_history : List (List Char)
deriving DecidableEq

/-- `Board.__getitem__`: `self.matrix[8 - row][col_to_int(col)]`. -/
def Board.getPos (b : Board) (p : Pos) : Except Err (Option Piece) := do
  let row ← pyGet b.matrix (8 - p.row)
  pyGet row p.col

/-- `Board.__setitem__`: `self.matrix[8 - row][col_to_int(col)] = piece`. -/
def Board.setPos (b : Board) (p : Pos) (v : Option Piece) : Except Err Board :=
  match pyIdx b.matrix.length (8 - p.row) with
  | none => .error .indexError
  | some r =>
    match b.matrix.get? r with
    | none => .error .indexError
    | some row =>
      match pyIdx row.length p.col with
      | none => .error .indexError
      | some c => .ok { b with matrix := b.matrix.set r (row.set c v) }

/-- `Board.__delitem__` assigns `None` to the cell. -/
def Board.delPos (b : Board) (p : Pos) : Except Err Board :=
  b.setPos p none

/-- `Board.is_valid`: `1 <= pos.row <= 8 and 1 <= col_to_int(pos.col) <= 8`
(note the source compares the column against `1..8`, not `0..7`). -/
def Board.is_valid (_b : Board) (p : Pos) : Bool :=
  1 ≤ p.row ∧ p.row ≤ 8 ∧ 1 ≤ p.col ∧ p.col ≤ 8

/-- `Board.__iter__` / flattening used by `Board.pieces` and move parsing:
row-major traversal of the matrix. -/
def Board.cells (b : Board) : List (Option Piece) :=
  b.matrix.flatten

/-- `Board.pieces`: all non-empty cells in row-major order. -/
def Board.pieces (b : Board) : List Piece :=
  b.cells.filterMap id

/-- `Board.get_king`: `self.kings[color]`, `KeyError` when absent. -/
def Board.get_king (b : Board) (c : Color) : Except Err Piece :=
  match (if c = .white then b.kingW else b.kingB) with
  | some k => .ok k
  | none => .error .keyError

/-- Mirror a mutation of a king object into the `kings` dictionary: the
dictionary entry aliases the king object, so when the engine mutates a piece
that is the dictionary's entry the dictionary sees the new value. -/
def Board.kingsSync (b : Board) (old new : Piece) : Board :=
  if old.kind = .king then
    if old.color = .white ∧ b.kingW = some old then { b with kingW := some new }
    else if old.color = .black ∧ b.kingB = some old then { b with kingB := some new }
    else b
  else b

/-- Mirror a mutation of an arbitrary piece object into its grid cell (the
cell at the piece's recorded position aliases the object when the board is
well formed). -/
def Board.pieceSync (b : Board) (old new : Piece) : Board :=
  match b.getPos old.pos with
  | .ok (some q) =>
    if q = old then
      match b.setPos old.pos (some new) with
      | .ok b2 => b2
      | .error _ => b
    else b
  | _ => b

/-- `Piece.can_move` in the abstract base class: `False` when the destination
equals the current position, `True` otherwise. -/
def superCanMove (p : Piece) (pos : Pos) : Bool :=
  ¬ (p.pos = pos)

/-- `Pawn.can_capture`. -/
def Pawn.can_capture (p : Piece) (pos : Pos) : Bool :=
  if p.color = .white then
    p.pos.add 1 1 = pos ∨ p.pos.add (-1) 1 = pos
  else
    p.pos.add 1 (-1) = pos ∨ p.pos.add (-1) (-1) = pos

/-- `Pawn.can_move`.  The source reads the destination square first; any
occupied destination delegates to `can_capture` (without a colour check). -/
def Pawn.can_move (b : Board) (p : Piece) (pos : Pos) : Except Err Bool := do
  let sqr ← b.getPos pos
  match sqr with
  | some _ => .ok (Pawn.can_capture p pos)
  | none =>
    if p.color = .white then
      if b.en_passant = some pos then
        .ok (p.pos.add 1 1 = pos ∨ p.pos.add (-1) 1 = pos)
      else if p.pos.add 0 1 = pos then
        .ok true
      else if p.pos.add 0 2 = pos ∧ p.pos.row = 2 then do
        let mid ← b.getPos (p.pos.add 0 1)
        .ok mid.isNone
      else
        .ok false
    else
      if b.en_passant = some pos then
        .ok (p.pos.add 1 (-1) = pos ∨ p.pos.add (-1) (-1) = pos)
      else if p.pos.add 0 (-1) = pos then
        .ok true
      else if p.pos.add 0 (-2) = pos ∧ p.pos.row = 7 then do
        let mid ← b.getPos (p.pos.add 0 (-1))
        .ok mid.isNone
      else
        .ok false

/-- `Knight.can_move`: the source reads `board[pos]` before testing the
offset set, so the read (and any `IndexError`) happens unconditionally. -/
def Knight.can_move (b : Board) (p : Piece) (pos : Pos) : Except Err Bool := do
  let sqr ← b.getPos pos
  let x := p.pos.col
  let y := p.pos.row
  let offsets : List (Int × Int) :=
    [(x + 1, y + 2), (x + 2, y + 1), (x + 2, y - 1), (x + 1, y - 2),
     (x - 1, y - 2), (x - 2, y - 1), (x - 2, y + 1), (x - 1, y + 2)]
  if offsets.contains (pos.col, pos.row) then
    .ok (superCanMove p pos && (match sqr with
      | none => true
      | some q => decide (q.color ≠ p.color)))
  else
    .ok false

/-- Shared path scan: the squares `base + (i*sx, i*sy)` for `i` in the given
index list must all be empty; stops at the first occupied square. -/
def pathScan (b : Board) (base : Pos) (sx sy : Int) : List Nat → Except Err Bool
  | [] => .ok true
  | i :: rest => do
    let sq ← b.getPos (base.add (i * sx) (i * sy))
    match sq with
    | some _ => .ok false
    | none => pathScan b base sx sy rest

/-- `range(1, n)` as a list of naturals. -/
def range1 (n : Nat) : List Nat :=
  (List.range (n - 1)).map (· + 1)

/-- `Bishop.check_path`. -/
def Bishop.check_path (b : Board) (p : Piece) (pos : Pos) : Except Err Bool := do
  let d := pos.diff p.pos
  let step_x : Int := if d.1 > 0 then 1 else -1
  let step_y : Int := if d.2 > 0 then 1 else -1
  let clear ← pathScan b p.pos step_x step_y (range1 d.1.natAbs)
  if ¬ clear then .ok false
  else do
    let sqr ← b.getPos pos
    .ok (match sqr with
      | none => true
      | some q => q.color ≠ p.color)

/-- `Bishop.can_move`. -/
def Bishop.can_move (b : Board) (p : Piece) (pos : Pos) : Except Err Bool := do
  let d := pos.diff p.pos
  if superCanMove p pos ∧ d.1.natAbs = d.2.natAbs then
    Bishop.check_path b p pos
  else
    .ok false

/-- `Rook.check_path` (also used verbatim by `Queen.check_path`): two scans,
one sized by the column distance, one by the row distance. -/
def Rook.check_path (b : Board) (p : Piece) (pos : Pos) : Except Err Bool := do
  let d := pos.diff p.pos
  let step_x : Int := if d.1 > 0 then 1 else if d.1 < 0 then -1 else 0
  let step_y : Int := if d.2 > 0 then 1 else if d.2 < 0 then -1 else 0
  let clear1 ← pathScan b p.pos step_x step_y (range1 d.1.natAbs)
  if ¬ clear1 then .ok false
  else do
    let clear2 ← pathScan b p.pos step_x step_y (range1 d.2.natAbs)
    if ¬ clear2 then .ok false
    else do
      let sqr ← b.getPos pos
      .ok (match sqr with
        | none => true
        | some q => q.color ≠ p.color)

/-- `Rook.can_move`. -/
def Rook.can_move (b : Board) (p : Piece) (pos : Pos) : Except Err Bool := do
  let d := pos.diff p.pos
  if superCanMove p pos ∧ (d.1 = 0 ∨ d.2 = 0) then
    Rook.check_path b p pos
  else
    .ok false

/-- `Queen.can_move`. -/
def Queen.can_move (b : Board) (p : Piece) (pos : Pos) : Except Err Bool := do
  let d := pos.diff p.pos
  if superCanMove p pos ∧ (d.1 = 0 ∨ d.2 = 0 ∨ d.1.natAbs = d.2.natAbs) then
    Rook.check_path b p pos
  else
    .ok false

/-- `King.can_move`: reads `board[pos]` before evaluating the condition. -/
def King.can_move (b : Board) (p : Piece) (pos : Pos) : Except Err Bool := do
  let d := pos.diff p.pos
  let sqr ← b.getPos pos
  .ok (superCanMove p pos && decide (d.1.natAbs ≤ 1) && decide (d.2.natAbs ≤ 1) &&
    (match sqr with
      | none => true
      | some q => decide (q.color ≠ p.color)))

/-- Dispatch of the virtual `can_move` over the piece classes. -/
def can_move (b : Board) (p : Piece) (pos : Pos) : Except Err Bool :=
  match p.kind with
  | .pawn => Pawn.can_move b p pos
  | .knight => Knight.can_move b p pos
  | .bishop => Bishop.can_move b p pos
  | .rook => Rook.can_move b p pos
  | .queen => Queen.can_move b p pos
  | .king => King.can_move b p pos

/-- Loop body of `Board.is_attacked`: scan the pieces in board order; a pawn
is tested with `can_capture`, anything else with `can_move`. -/
def isAttackedAux (b : Board) (pos : Pos) (c : Color) :
    List (Option Piece) → Except Err Bool
  | [] => .ok false
  | none :: rest => isAttackedAux b pos c rest
  | some p :: rest =>
    if p.color = c then do
      let hit ← (if p.kind = .pawn then .ok (Pawn.can_capture p pos) else can_move b p pos)
      if hit then .ok true else isAttackedAux b pos c rest
    else
      isAttackedAux b pos c rest

/-- `Board.is_attacked`. -/
def Board.is_attacked (b : Board) (pos : Pos) (c : Color) : Except Err Bool :=
  isAttackedAux b pos c b.cells

/-! String rendering helpers (`str` of positions, pieces, integers). -/

/-- Decimal digits of a natural number (fuelled; 20 digits is plenty). -/
def natStrAux : Nat → Nat → List Char
  | 0, _ => []
  | fuel + 1, n =>
    if n < 10 then [Char.ofNat (48 + n)]
    else natStrAux fuel (n / 10) ++ [Char.ofNat (48 + n % 10)]

/-- `str(n)` for a natural number. -/
def natStr (n : Nat) : List Char := natStrAux 20 n

/-- `str(i)` for an integer. -/
def intStr (i : Int) : List Char :=
  if i < 0 then '-' :: natStr i.natAbs else natStr i.natAbs

/-- `int_to_col`: `chr(num + 97)`. -/
def colChar (c : Int) : Char := Char.ofNat (c + 97).toNat

/-- `Position.__str__`: `f'{self.col}{self.row}'`. -/
def posStr (p : Pos) : List Char := colChar p.col :: intStr p.row

/-- `str(cell)` where a cell is a piece or `None`. -/
def strCell : Option Piece → List Char
  | some p => [pieceChar p]
  | none => ['N', 'o', 'n', 'e']

/-- `Game.en_passant` property getter: `str(self.board.en_passant)` or `'-'`. -/
def Board.epStr (b : Board) : List Char :=
  match b.en_passant with
  | some p => posStr p
  | none => ['-']

/-! Position signatures for repetition detection. -/

/-- `itertools.groupby`: run-length grouping of consecutive equal elements. -/
def runs {α : Type} [DecidableEq α] : List α → List (α × Nat)
  | [] => []
  | a :: rest =>
    match runs rest with
    | [] => [(a, 1)]
    | (b, n) :: t => if a = b then (a, n + 1) :: t else (a, 1) :: (b, n) :: t

/-- One rank of `Board.__repr__`: empty runs become their length, piece runs
become the piece character (emitted once per `groupby` group). -/
def rankRepr (row : List (Option Piece)) : List Char :=
  (runs row).flatMap fun g =>
    match g.1 with
    | none => natStr g.2
    | some p => [pieceChar p]

/-- `Board.__repr__`: the ranks joined with `'/'`. -/
def Board.reprFen (b : Board) : List Char :=
  List.intercalate ['/'] (b.matrix.map rankRepr)

/-- The position signature appended to `move_history` by `StandardGame.move`:
`repr(self.board) + self.turn + self.castling + self.en_passant`. -/
def Board.sigStr (b : Board) : List Char :=
  b.reprFen ++ b.turn ++ b.castling ++ b.epStr

/-- `Board.is_triple_repetition`: counts the last history entry
(`IndexError` on an empty history). -/
def Board.is_triple_repetition (b : Board) : Except Err Bool :=
  match b.move_history.getLast? with
  | none => .error .indexError
  | some h => .ok (3 ≤ b.move_history.count h)

/-- `Board.is_insufficient_material`. -/
def Board.is_insufficient_material (b : Board) : Bool :=
  let ps := b.pieces
  (¬ ps.any fun p => decide (p.kind = .pawn) || decide (p.kind = .rook) ||
      decide (p.kind = .queen)) &&
    decide ((ps.filter fun p => decide (p.color = .white)).length ≤ 2) &&
    decide ((ps.filter fun p => decide (p.color = .black)).length ≤ 2)

/-! The game state machine. -/

/-- `StandardGame` state: the board (which already owns turn, castling,
en passant and history) plus the two counters. -/
structure Game where
  board : Board
  halfmove : Int
  fullmove : Int
deriving DecidableEq

/-- `Game.change_turn`: `'w' if self.turn == 'b' else 'b'`. -/
def Board.changeTurn (b : Board) : Board :=
  { b with turn := if b.turn = ['b'] then ['w'] else ['b'] }

def Game.changeTurn (g : Game) : Game := { g with board := g.board.changeTurn }

/-- `COLOR_MAP[t]` (a dictionary lookup; `KeyError` on anything else). -/
def colorMap (t : List Char) : Except Err Color :=
  if t = ['w'] then .ok .white
  else if t = ['b'] then .ok .black
  else .error .keyError

/-- `StandardGame.is_check`.  The source flips the turn, queries the board and
flips it back; both flips cancel on the non-raising path, so the query is
modelled as a pure function of the board. -/
def Board.is_check (b : Board) : Except Err Bool := do
  let color ← colorMap b.turn
  let enemy ← colorMap (if b.turn = ['b'] then ['w'] else ['b'])
  let k ← b.get_king color
  b.is_attacked k.pos enemy

/-- `King.castle`: the king moves two files toward the rook, the rook lands
next to the king (the rook target is computed from the king's new square). -/
def Piece.castleWith (kg rk : Piece) : Piece × Piece :=
  if rk.pos.col < kg.pos.col then
    let kg2 := { kg with pos := kg.pos.sub 2 0 }
    (kg2, { rk with pos := kg2.pos.add 1 0 })
  else
    let kg2 := { kg with pos := kg.pos.add 2 0 }
    (kg2, { rk with pos := kg2.pos.sub 1 0 })

/-- `Board.move`. -/
def Board.move (b : Board) (p : Piece) (pos : Pos) : Except Err (Board × Piece) :=
  if p.kind = .king ∧ (p.pos.diff pos).1.natAbs = 2 then do
    let rook ← (if pos.col = 6 then b.getPos (pos.add 1 0) else b.getPos (pos.sub 2 0))
    let castle_pos : Pos := ⟨if pos.col = 6 then 5 else 3, pos.row⟩
    match rook with
    | some r =>
      if r.kind = .rook ∧ r.color = p.color then do
        let b1 ← b.delPos p.pos
        let b2 ← b1.delPos r.pos
        let pr := Piece.castleWith p r
        let b3 := b2.kingsSync p pr.1
        let b4 ← b3.setPos castle_pos (some pr.2)
        let b5 ← b4.setPos pos (some pr.1)
        .ok (b5, pr.1)
      else .error .runtimeError
    | none => .error .runtimeError
  else do
    let b1 ← b.delPos p.pos
    let p2 := { p with pos := pos }
    let b2 := b1.kingsSync p p2
    let b3 ← b2.setPos pos (some p2)
    .ok (b3, p2)

/-- `StandardGame.is_legal`: pseudo-legality, speculative apply, king-safety
query, unconditional restore.  Returns the verdict together with the board and
the probed piece after the restore. -/
def is_legal (b : Board) (p : Piece) (pos : Pos) : Except Err (Bool × Board × Piece) := do
  let cm ← can_move b p pos
  if ¬ cm then .ok (false, b, p)
  else do
    let cap ← b.getPos pos
    let prev := p.pos
    let m1 ← b.move p pos
    let chk ← m1.1.is_check
    let m2 ← m1.1.move m1.2 prev
    let b3 ← m2.1.setPos pos cap
    .ok (!chk, b3, m2.2)

/-- The 64 squares in the order of `Position.__next__` starting at `a1`. -/
def posOrder : List Pos :=
  (List.range 8).flatMap fun r => (List.range 8).map fun c => (⟨c, r + 1⟩ : Pos)

/-- Direct write to a matrix cell by coordinates (mutation of the piece
object sitting in that cell). -/
def Board.setCell (b : Board) (rc : Nat × Nat) (v : Option Piece) : Board :=
  match b.matrix.get? rc.1 with
  | some row => { b with matrix := b.matrix.set rc.1 (row.set rc.2 v) }
  | none => b

/-- The pieces of the board together with their cell coordinates, in the
row-major order of `Board.pieces`. -/
def Board.piecesWithCoords (b : Board) : List ((Nat × Nat) × Piece) :=
  ((b.matrix.mapIdx fun r row =>
      row.mapIdx fun c cell => cell.map fun p => ((r, c), p)).flatten).filterMap id

/-- One probe of the `update_legal_moves` inner loop. -/
def ulmProbe (st : Board × Piece × List Pos) (tmp : Pos) :
    Except Err (Board × Piece × List Pos) := do
  let r ← is_legal st.1 st.2.1 tmp
  .ok (r.2.1, r.2.2, if r.1 then st.2.2 ++ [tmp] else st.2.2)

/-- Recompute one piece's `legal_moves`: clear the object's list, probe the 64
squares, store the collected list in the object.  The probe-by-probe appends
are accumulated and written once; this is observationally equal because no
probe reads `legal_moves`. -/
def ulmPiece (b : Board) (coord : Nat × Nat) (p : Piece) : Except Err Board := do
  let p0 := { p with legal := [] }
  let b0 := ((b.setCell coord (some p0)).kingsSync p p0)
  let res ← posOrder.foldlM ulmProbe (b0, p0, ([] : List Pos))
  let pF := res.2.1
  let pN := { pF with legal := res.2.2 }
  .ok ((res.1.pieceSync pF pN).kingsSync pF pN)

/-- `StandardGame.update_legal_moves`. -/
def update_legal_moves (g : Game) : Except Err Game := do
  let snap := g.board.piecesWithCoords
  let bF ← snap.foldlM (fun b entry => do
      let tc ← colorMap b.turn
      if entry.2.color ≠ tc then .ok b
      else ulmPiece b entry.1 entry.2) g.board
  .ok { g with board := bF }

/-- `Game.legal_moves` property: the rendered cached legal moves of the side
to move. -/
def Game.legal_moves (g : Game) : Except Err (List (List Char)) :=
  g.board.cells.foldlM (fun acc cell =>
    match cell with
    | none => .ok acc
    | some p => do
      let tc ← colorMap g.board.turn
      if p.color = tc then .ok (acc ++ p.legal.map posStr) else .ok acc) []

/-! FEN parsing. -/

/-- Characters allowed inside a placement rank by the `load_fen` regex. -/
def fenClassChar (c : Char) : Bool :=
  ('1' ≤ c ∧ c ≤ '8') ∨
    c ∈ ['P', 'p', 'N', 'n', 'B', 'b', 'R', 'r', 'Q', 'q', 'K', 'k']

/-- `s.split(sep)` for a single separator character (empty parts kept). -/
def splitChar (sep : Char) : List Char → List (List Char)
  | [] => [[]]
  | c :: rest =>
    let r := splitChar sep rest
    if c = sep then [] :: r
    else
      match r with
      | g :: t => (c :: g) :: t
      | [] => [[c]]

/-- The placement regex
`^([1-8PpNnBbRrQqKk]\x7b1,8\x7d/)\x7b7\x7d[1-8PpNnBbRrQqKk]\x7b1,8\x7d$`:
exactly eight `/`-separated groups of one to eight class characters. -/
def fenPlacementOk (s : List Char) : Bool :=
  let gs := splitChar '/' s
  decide (gs.length = 8) &&
    gs.all fun g => decide (1 ≤ g.length) && decide (g.length ≤ 8) && g.all fenClassChar

/-- `pieces_from_fen[c]` (dictionary lookup on the lower-cased character). -/
def pieces_from_fen (c : Char) : Except Err Kind :=
  if c = 'p' then .ok .pawn
  else if c = 'n' then .ok .knight
  else if c = 'b' then .ok .bishop
  else if c = 'r' then .ok .rook
  else if c = 'q' then .ok .queen
  else if c = 'k' then .ok .king
  else .error .keyError

/-- Inner loop of `load_fen` over one rank's characters. -/
def loadRowChars (rowIdx : Nat) (i_row : Int) :
    Board → List Char → Int → Except Err Board
  | b, [], _ => .ok b
  | b, ch :: rest, i_col =>
    if ch.isDigit then
      loadRowChars rowIdx i_row b rest (i_col + ((ch.toNat : Int) - 48))
    else do
      let color := if ch.isUpper then Color.white else Color.black
      let kind ← pieces_from_fen ch.toLower
      let piece : Piece := ⟨kind, color, ⟨i_col, i_row⟩, []⟩
      let row ← (match b.matrix.get? rowIdx with
        | some r => .ok r
        | none => .error .indexError)
      let row2 ← pySet row i_col (some piece)
      let b2 := { b with matrix := b.matrix.set rowIdx row2 }
      let b3 :=
        if kind = .king then
          if color = .white then { b2 with kingW := some piece }
          else { b2 with kingB := some piece }
        else b2
      loadRowChars rowIdx i_row b3 rest (i_col + 1)

/-- Outer loop of `load_fen` over the eight ranks. -/
def loadRows : Board → Nat → List (List Char) → Except Err Board
  | b, _, [] => .ok b
  | b, rowIdx, r :: rest => do
    let b2 ← loadRowChars rowIdx (8 - (rowIdx : Int)) b r 0
    loadRows b2 (rowIdx + 1) rest

/-- `Board.from_fen` / `Board.load_fen` on a fresh board. -/
def Board.load_fen (fen : List Char) : Except Err Board := do
  if ¬ fenPlacementOk fen then .error .invalidFen
  else
    let init : Board :=
      ⟨List.replicate 8 (List.replicate 8 none), none, none, ['w'], none,
        ['K', 'Q', 'k', 'q'], []⟩
    loadRows init 0 (splitChar '/' fen)

/-- `s.split()`: split on whitespace runs, dropping empty parts. -/
def splitWs (s : List Char) : List (List Char) :=
  (splitChar ' ' s).filter (· ≠ [])

/-- `int(s)`: an optional sign followed by at least one digit. -/
def pyInt (s : List Char) : Except Err Int :=
  let digitsVal : List Char → Except Err Int := fun l =>
    if l ≠ [] ∧ l.all Char.isDigit then
      .ok (l.foldl (fun acc c => acc * 10 + ((c.toNat : Int) - 48)) 0)
    else .error .valueError
  match s with
  | '-' :: rest => do let n ← digitsVal rest; .ok (-n)
  | '+' :: rest => digitsVal rest
  | _ => digitsVal s

/-- Python's substring test `needle in hay`. -/
def isSubstr (needle hay : List Char) : Bool :=
  decide (needle <:+: hay)

/-- The `Game.en_passant` property setter applied to a FEN token:
`Position(s[0], int(s[1]))` unless the token is `'-'`. -/
def epSetter (s : List Char) : Except Err (Option Pos) :=
  if s = ['-'] then .ok none
  else
    match s with
    | c0 :: c1 :: _ => do
      let r ← pyInt [c1]
      .ok (some ⟨(c0.toNat : Int) - 97, r⟩)
    | _ => .error .indexError

/-- The body of `StandardGame.parse_fen` before its `except` clause. -/
def parse_fen_body (fen : List Char) : Except Err Game := do
  match splitWs fen with
  | [placement, turn, castling, ep, hm, fm] => do
    let b0 ← Board.load_fen placement
    let b1 := { b0 with turn := turn, castling := castling }
    let epv ← epSetter ep
    let b2 := { b1 with en_passant := epv }
    let hmv ← pyInt hm
    let fmv ← pyInt fm
    let g0 : Game := ⟨b2, hmv, fmv⟩
    let g1 ← update_legal_moves g0
    if ¬ isSubstr g1.board.turn ['w', 'b'] then .error .assertionError
    else if ¬ isSubstr g1.board.castling ['K', 'Q', 'k', 'q', '-'] then .error .assertionError
    else if ¬ isSubstr g1.board.epStr ['-', 'a', 'b', 'c', 'd', 'e', 'f', 'g', 'h', '3', '6'] then
      .error .assertionError
    else if ¬ (0 ≤ g1.halfmove ∧ g1.halfmove ≤ 150) then .error .assertionError
    else if ¬ (0 ≤ g1.fullmove) then .error .assertionError
    else .ok g1
  | _ => .error .valueError

/-- `StandardGame.parse_fen`: `ValueError`, `AssertionError` and
`InvalidFenError` are converted to `InvalidFenError`; anything else (for
example `IndexError` or `KeyError`) propagates unchanged. -/
def parse_fen (fen : List Char) : Except Err Game :=
  match parse_fen_body fen with
  | .error .valueError => .error .invalidFen
  | .error .assertionError => .error .invalidFen
  | .error .invalidFen => .error .invalidFen
  | .error e => .error e
  | .ok g => .ok g

/-! Castling legality (`King.can_castle`). -/

/-- `King.get_rook`: walk from the king one square at a time in the given
direction while the current square passes `is_valid`; read the next square
and stop at the first rook.  Fuelled: the walk leaves the `is_valid` column
window `1..8` after at most eight valid iterations. -/
def getRookWalk (b : Board) (step : Int) : Nat → Pos → Except Err (Option Piece)
  | 0, _ => .error .runtimeError
  | fuel + 1, pos_tmp =>
    if b.is_valid pos_tmp then do
      let nxt := pos_tmp.add step 0
      let piece ← b.getPos nxt
      match piece with
      | some q => if q.kind = .rook then .ok (some q) else getRookWalk b step fuel nxt
      | none => getRookWalk b step fuel nxt
    else .ok none

def King.get_rook (b : Board) (k : Piece) (ct : List Char) : Except Err (Option Piece) :=
  getRookWalk b (if ct = ['O', '-', 'O'] then 1 else -1) 12 k.pos

/-- King leg of `King.check_castle_paths`: every square stepped onto must be
empty or a rook, and not attacked by the enemy. -/
def castleKingWalk (b : Board) (endPos : Pos) (step : Int) (enemy : Color) :
    Nat → Pos → Except Err Bool
  | 0, _ => .error .runtimeError
  | fuel + 1, pt =>
    if pt ≠ endPos ∧ b.is_valid pt then do
      let pt2 := pt.add step 0
      let sq ← b.getPos pt2
      let occBlock :=
        match sq with
        | some q => decide (q.kind ≠ .rook)
        | none => false
      if occBlock then .ok false
      else do
        let att ← b.is_attacked pt2 enemy
        if att then .ok false else castleKingWalk b endPos step enemy fuel pt2
    else .ok true

/-- Rook leg of `King.check_castle_paths`: every square stepped onto must be
empty or a king. -/
def castleRookWalk (b : Board) (endPos : Pos) (step : Int) :
    Nat → Pos → Except Err Bool
  | 0, _ => .error .runtimeError
  | fuel + 1, pt =>
    if pt ≠ endPos ∧ b.is_valid pt then do
      let pt2 := pt.add step 0
      let sq ← b.getPos pt2
      match sq with
      | some q =>
        if q.kind ≠ .king then .ok false else castleRookWalk b endPos step fuel pt2
      | none => castleRookWalk b endPos step fuel pt2
    else .ok true

def King.check_castle_paths (b : Board) (k rook : Piece) (ct : List Char) :
    Except Err Bool := do
  let end_pos_k : Pos := if ct = ['O', '-', 'O'] then ⟨6, k.pos.row⟩ else ⟨2, k.pos.row⟩
  let end_pos_r : Pos := if ct = ['O', '-', 'O'] then end_pos_k.sub 1 0 else end_pos_k.add 1 0
  let step_k : Int :=
    if end_pos_k.col > k.pos.col then 1 else if end_pos_k.col < k.pos.col then -1 else 0
  let step_r : Int :=
    if end_pos_r.col > rook.pos.col then 1 else if end_pos_r.col < rook.pos.col then -1 else 0
  let enemy := if k.color = .black then Color.white else Color.black
  let ok1 ← castleKingWalk b end_pos_k step_k enemy 12 k.pos
  if ¬ ok1 then .ok false
  else castleRookWalk b end_pos_r step_r 12 rook.pos

def King.can_castle (b : Board) (k : Piece) (ct : List Char) : Except Err Bool := do
  let rook ← King.get_rook b k ct
  match rook with
  | none => .ok false
  | some r => King.check_castle_paths b k r ct

/-! Move-notation grammar. -/

def isUpperPiece (c : Char) : Bool := c ∈ ['N', 'B', 'R', 'Q', 'K']
def isFileChar (c : Char) : Bool := 'a' ≤ c ∧ c ≤ 'h'
def isRankChar (c : Char) : Bool := '1' ≤ c ∧ c ≤ '8'
def isPromoChar (c : Char) : Bool := c ∈ ['N', 'B', 'R', 'Q']

/-- Consume one optional leading character of the given class. -/
def stripOpt (p : Char → Bool) : List Char → List Char
  | [] => []
  | c :: rest => if p c then rest else c :: rest

/-- The `[NBRQK]?[a-h]?[1-8]?x?` part of the move regex (the four character
classes are pairwise disjoint, so left-to-right stripping is exact). -/
def headShapeOk (l : List Char) : Bool :=
  stripOpt (· = 'x') (stripOpt isRankChar (stripOpt isFileChar (stripOpt isUpperPiece l))) = []

/-- `[NBRQK]?[a-h]?[1-8]?x?[a-h][1-8]`: the destination square is forced to
be the final two characters. -/
def coreShapeOk (core : List Char) : Bool :=
  match core.reverse with
  | r :: f :: rest => isRankChar r && isFileChar f && headShapeOk rest.reverse
  | _ => false

/-- The move regex
`^([NBRQK]?[a-h]?[1-8]?x?[a-h][1-8](=[NBRQ])?|O(-O)\x7b1,2\x7d)$`. -/
def moveRe (s : List Char) : Bool :=
  decide (s = ['O', '-', 'O']) || decide (s = ['O', '-', 'O', '-', 'O']) ||
    (match s.reverse with
     | p :: '=' :: rest => isPromoChar p && coreShapeOk rest.reverse
     | _ => coreShapeOk s)

/-! Move parsing (`Game.parse_move`). -/

/-- `Board.__getitem__` with a string subscript:
`Position(pos[0], int(pos[1]))`. -/
def Board.getFromStr (b : Board) (s : List Char) : Except Err (Option Piece) :=
  match s with
  | c0 :: c1 :: _ => do
    let r ← pyInt [c1]
    b.getPos ⟨(c0.toNat : Int) - 97, r⟩
  | _ => .error .indexError

/-- The `for p in self` resolution loop of `parse_move`: first piece of the
side to move whose kind letter, disambiguation predicate and cached legal
moves match. -/
def resolveAux (color : Color) (k0 : Char) (cond : Pos → Bool) (pos : Pos) :
    List (Option Piece) → Option Piece
  | [] => none
  | none :: rest => resolveAux color k0 cond pos rest
  | some p :: rest =>
    if p.color = color ∧ pieceCharUpper p = k0 ∧ cond p.pos ∧ p.legal.contains pos then
      some p
    else resolveAux color k0 cond pos rest

/-- `Game.parse_move`. -/
def parse_move (g : Game) (mv : List Char) :
    Except Err (Piece × Pos × Option Piece × Option Kind) := do
  if ¬ moveRe mv then .error .invalidMoveInput
  else
    let color := if g.board.turn = ['w'] then Color.white else Color.black
    if mv.head? = some 'O' then do
      let king ← g.board.get_king color
      let col : Int := if mv = ['O', '-', 'O'] then 6 else 2
      let row : Int := if g.board.turn = ['w'] then 1 else 8
      let cc0 : Char := if mv = ['O', '-', 'O'] then 'k' else 'q'
      let castle_char : Char := if g.board.turn = ['w'] then cc0.toUpper else cc0.toLower
      if ¬ g.board.castling.contains castle_char then .error .illegalMove
      else do
        let can ← King.can_castle g.board king mv
        if ¬ can then .error .illegalMove
        else do
          let chk ← g.board.is_check
          if chk then .error .illegalMove
          else .ok (king, ⟨col, row⟩, none, none)
    else do
      let hasEq := mv.contains '='
      let parsed ←
        (if hasEq then
          if (match mv.head? with | some c => isUpperPiece c | none => false) then
            Except.error Err.invalidMoveInput
          else do
            let lastc ← pyGet mv (-1)
            let promoKind ← pieces_from_fen lastc.toLower
            let c0 ← pyGet mv (-4)
            let c1 ← pyGet mv (-3)
            let rv ← pyInt [c1]
            let pos : Pos := ⟨(c0.toNat : Int) - 97, rv⟩
            if pos.row ≠ 8 ∧ pos.row ≠ 1 then Except.error Err.invalidMoveInput
            else Except.ok (some promoKind, pos, mv.length - 4)
        else do
          let c0 ← pyGet mv (-2)
          let c1 ← pyGet mv (-1)
          let rv ← pyInt [c1]
          Except.ok ((none : Option Kind), (⟨(c0.toNat : Int) - 97, rv⟩ : Pos),
            mv.length - 2))
      match parsed with
      | (promo, pos, pos_index0) =>
        let doPrep : Bool := match mv.head? with | some c => ¬ isUpperPiece c | none => true
        let mv2 := if doPrep then 'P' :: mv else mv
        let pos_index := if doPrep then pos_index0 + 1 else pos_index0
        let condE : Except Err (Pos → Bool) :=
          if pos_index ≠ 1 then
            match mv2.get? 1 with
            | some c1 =>
              if isSubstr [c1] ['a', 'b', 'c', 'd', 'e', 'f', 'g', 'h'] then
                match mv2.get? 2 with
                | some c2 =>
                  if isSubstr [c2] ['1', '2', '3', '4', '5', '6', '7', '8'] then
                    .ok fun q =>
                      decide (q.col = (c1.toNat : Int) - 97) &&
                        decide (q.row = (c2.toNat : Int) - 48)
                  else .ok fun q => decide (q.col = (c1.toNat : Int) - 97)
                | none => .error .indexError
              else if isSubstr [c1] ['1', '2', '3', '4', '5', '6', '7', '8'] then
                .ok fun q => decide (q.row = (c1.toNat : Int) - 48)
              else .ok fun _ => true
            | none => .error .indexError
          else .ok fun _ => true
        match condE with
        | .error e => .error e
        | .ok cond =>
          let k0 : Char := match mv2.head? with | some c => c | none => 'P'
          let piece? := resolveAux color k0 cond pos g.board.cells
          let isEp :=
            (match piece? with | some p => decide (p.kind = .pawn) | none => false) &&
              decide (posStr pos = g.board.epStr)
          let captured ←
            if isEp then
              g.board.getFromStr [colChar pos.col, if g.board.turn = ['w'] then '5' else '4']
            else g.board.getFromStr (posStr pos)
          if mv2.contains 'x' ∧ captured.isNone then .error .invalidMoveInput
          else if ¬ mv2.contains 'x' ∧ captured.isSome then .error .invalidMoveInput
          else
            match piece? with
            | none => .error .illegalMove
            | some p => .ok (p, pos, captured, promo)

/-! Committing a move (`StandardGame.move`) and termination detection. -/

inductive GOStatus where
  | checkmate
  | stalemate
  | insufficientMaterial
  | fiftyMoveRule
  | threefoldRepetition
deriving DecidableEq

inductive Outcome where
  | ok
  | err (e : Err)
  | over (st : GOStatus) (w : Option Color)
deriving DecidableEq

/-- `StandardGame.game_over`: evaluates the four termination conditions in
source order; the checkmate branch flips the turn before raising. -/
def game_over (g : Game) : Except Err (Option (GOStatus × Option Color) × Game) := do
  let lm ← g.legal_moves
  if lm = [] then do
    let chk ← g.board.is_check
    if chk then
      let g2 := g.changeTurn
      let w ← colorMap g2.board.turn
      .ok (some (.checkmate, some w), g2)
    else .ok (some (.stalemate, none), g)
  else if g.halfmove ≥ 100 then .ok (some (.fiftyMoveRule, none), g)
  else do
    let rep ← g.board.is_triple_repetition
    if rep then .ok (some (.threefoldRepetition, none), g)
    else if g.board.is_insufficient_material then .ok (some (.insufficientMaterial, none), g)
    else .ok (none, g)

/-- The en passant target assignment of `StandardGame.move`:
`pos + (0, -1)` for White, `pos + (0, 1)` for Black (through the
`en_passant` property setter). -/
def setEp (g : Game) (piece : Piece) (pos : Pos) : Game :=
  let tgt : Pos := if piece.color = .white then pos.add 0 (-1) else pos.add 0 1
  { g with board := { g.board with en_passant := some tgt } }

/-- The tail of `StandardGame.move` after the piece-kind `match`: clear the
en passant target unless it was just set, apply the move to the board, update
the counters, turn and rights string, recompute legal moves, append the
position signature and run termination detection. -/
def move_commit (g0 : Game) (piece : Piece) (pos : Pos) (captured : Option Piece)
    (en_passant_changed : Bool) : Outcome × Game :=
  let g := if en_passant_changed then g0
    else { g0 with board := { g0.board with en_passant := none } }
  match g.board.move piece pos with
  | .error e => (.err e, g)
  | .ok (b2, _) =>
    let g := { g with board := b2 }
    let g := if captured.isSome then { g with halfmove := 0 } else g
    let g := if g.board.castling = [] then
        { g with board := { g.board with castling := ['-'] } }
      else g
    let g := g.changeTurn
    let g := if g.board.turn = ['w'] then { g with fullmove := g.fullmove + 1 } else g
    match update_legal_moves g with
    | .error e => (.err e, g)
    | .ok g2 =>
      let g3 := { g2 with board :=
        { g2.board with move_history := g2.board.move_history ++ [g2.board.sigStr] } }
      match game_over g3 with
      | .error e => (.err e, g3)
      | .ok (none, g4) => (.ok, g4)
      | .ok (some (st, w), g4) => (.over st w, g4)

/-- `str.replace(c, '')`: removes every occurrence. -/
def removeChar (s : List Char) (c : Char) : List Char :=
  s.filter (· ≠ c)

/-- `StandardGame.move`. -/
def StandardGame.move (g0 : Game) (mv : List Char) : Outcome × Game :=
  match parse_move g0 mv with
  | .error e => (.err e, g0)
  | .ok (piece, pos, captured, promo) =>
    let prev := piece.pos
    let g := { g0 with halfmove := g0.halfmove + 1 }
    match piece.kind with
    | .pawn =>
      let g := { g with halfmove := 0 }
      let chrp : Char := if piece.color = .black then 'P' else 'p'
      if (pos.row - prev.row).natAbs = 2 then
        match g.board.getPos (pos.add 1 0) with
        | .error e => (.err e, g)
        | .ok s1 =>
          if strCell s1 = [chrp] then
            move_commit (setEp g piece pos) piece pos captured true
          else
            match g.board.getPos (pos.add (-1) 0) with
            | .error e => (.err e, g)
            | .ok s2 =>
              if strCell s2 = [chrp] then
                move_commit (setEp g piece pos) piece pos captured true
              else move_commit g piece pos captured false
      else if pos.row = 1 ∨ pos.row = 8 then
        match promo with
        | none => (.err .invalidMoveInput, g)
        | some k =>
          let p2 := { piece with kind := k }
          let g := { g with board := g.board.pieceSync piece p2 }
          move_commit g p2 pos captured false
      else if posStr pos = g.board.epStr then
        match captured with
        | none => (.err .invalidMoveInput, g)
        | some cp =>
          match g.board.delPos cp.pos with
          | .error e => (.err e, g)
          | .ok b2 => move_commit { g with board := b2 } piece pos captured false
      else move_commit g piece pos captured false
    | .king =>
      let newCast :=
        if piece.color = .white then removeChar (removeChar g.board.castling 'K') 'Q'
        else removeChar (removeChar g.board.castling 'k') 'q'
      move_commit { g with board := { g.board with castling := newCast } }
        piece pos captured false
    | .rook =>
      let newCast :=
        if prev = (⟨0, 1⟩ : Pos) then removeChar g.board.castling 'Q'
        else if prev = (⟨7, 1⟩ : Pos) then removeChar g.board.castling 'K'
        else if prev = (⟨0, 8⟩ : Pos) then removeChar g.board.castling 'q'
        else if prev = (⟨7, 8⟩ : Pos) then removeChar g.board.castling 'k'
        else g.board.castling
      move_commit { g with board := { g.board with castling := newCast } }
        piece pos captured false
    | _ => move_commit g piece pos captured false

/-- The matrix coordinates a position resolves to (`none` = `IndexError`). -/
def Board.cellIdx (b : Board) (q : Pos) : Option (Nat × Nat) :=
  match pyIdx b.matrix.length (8 - q.row) with
  | none => none
  | some r =>
    match b.matrix[r]? with
    | none => none
    | some row =>
      match pyIdx row.length q.col with
      | none => none
      | some c => some (r, c)


/-- Cell read on a raw matrix. -/
def mget (M : List (List (Option Piece))) (r c : Nat) : Option (Option Piece) :=
  match M[r]? with
  | some row => row[c]?
  | none => none

/-- Cell write on a raw matrix (no-op when the row is missing). -/
def mset (M : List (List (Option Piece))) (r c : Nat) (v : Option Piece) :
    List (List (Option Piece)) :=
  match M[r]? with
  | some row => M.set r (row.set c v)
  | none => M


/-! Concrete positions, boards and games used when evaluating the claims. -/

def startFen : List Char :=
  "rnbqkbnr/pppppppp/8/8/8/8/PPPPPPPP/RNBQKBNR w KQkq - 0 1".toList

/-- The ordinary FEN of the position after 1.e4, with en passant square `e3`. -/
def fenAfterE4 : List Char :=
  "rnbqkbnr/pppppppp/8/8/4P3/8/PPPP1PPP/RNBQKBNR b KQkq e3 0 1".toList

/-- A position with a white pawn ready to promote and halfmove clock 5. -/
def fenPromo : List Char := "4k3/6P1/8/8/8/8/8/4K3 w - - 5 1".toList

/-- A position where the a-pawn's double advance wraps around and reads h4. -/
def fenAlias : List Char := "k7/8/8/8/7p/8/P7/K7 w - - 0 1".toList

def fallbackGame : Game := ⟨⟨[], none, none, ['w'], none, [], []⟩, 0, 0⟩

def gameOfFen (fen : List Char) : Game :=
  match parse_fen fen with
  | .ok g => g
  | .error _ => fallbackGame

def startGame : Game := gameOfFen startFen
def promoGame : Game := gameOfFen fenPromo
def aliasGame : Game := gameOfFen fenAlias

def boardOfFen (s : List Char) : Board :=
  match Board.load_fen s with
  | .ok b => b
  | .error _ => ⟨[], none, none, ['w'], none, [], []⟩

/-- White rook a1 and white king e1, used to exercise a legality probe. -/
def probeBoard : Board := boardOfFen "8/8/8/8/8/8/8/R3K3".toList

def probeRook : Piece := ⟨.rook, .white, ⟨0, 1⟩, []⟩

/-- White pawn e4, white knight d5 (same colour), kings on e1/e8. -/
def ownCaptureBoard : Board := boardOfFen "4k3/8/8/3N4/4P3/8/8/4K3".toList

def ownCapturePawn : Piece := ⟨.pawn, .white, ⟨4, 4⟩, []⟩

def ownCaptureKnight : Piece := ⟨.knight, .white, ⟨3, 5⟩, []⟩

/-- Folding a sequence of move strings through the state machine. -/
def playMoves (g : Game) (ms : List (List Char)) : Game :=
  ms.foldl (fun g m => (StandardGame.move g m).2) g

/-- A position whose white king has lost its castling rights (`castling = "Q"`). -/
def fenNoCastle : List Char :=
  "4k3/8/8/8/8/8/8/4K2R w Q - 0 1".toList

def noCastleGame : Game := gameOfFen fenNoCastle

/-! Decoding position signatures: used to state that the signature string
determines the board layout, side to move, castling rights and en passant
target of a well-formed position. -/

/-- The identity of a piece as far as the board layout is concerned. -/
def pieceKC (p : Piece) : Kind × Color := (p.kind, p.color)

/-- Inverse of `pieceChar`. -/
def pieceKCOfChar (c : Char) : Option (Kind × Color) :=
  if c = 'P' then some (.pawn, .white)
  else if c = 'p' then some (.pawn, .black)
  else if c = 'N' then some (.knight, .white)
  else if c = 'n' then some (.knight, .black)
  else if c = 'B' then some (.bishop, .white)
  else if c = 'b' then some (.bishop, .black)
  else if c = 'R' then some (.rook, .white)
  else if c = 'r' then some (.rook, .black)
  else if c = 'Q' then some (.queen, .white)
  else if c = 'q' then some (.queen, .black)
  else if c = 'K' then some (.king, .white)
  else if c = 'k' then some (.king, .black)
  else none

/-- Decode one rank of `Board.__repr__` back into cell contents. -/
def decodeRank : List Char → List (Option (Kind × Color))
  | [] => []
  | c :: rest =>
    if '1' ≤ c ∧ c ≤ '8' then
      List.replicate (c.toNat - 48) none ++ decodeRank rest
    else
      match pieceKCOfChar c with
      | some kc => some kc :: decodeRank rest
      | none => decodeRank rest

/-- A row of the grid, reduced to the layout information. -/
def rowKC (row : List (Option Piece)) : List (Option (Kind × Color)) :=
  row.map (Option.map pieceKC)

/-- The board layout: which piece kind/colour sits on which square. -/
def Board.matrixKC (b : Board) : List (List (Option (Kind × Color))) :=
  b.matrix.map rowKC

/-- Well-formedness of a board state as maintained by the engine: an 8x8
grid, a one-letter turn, rights drawn from `KQkq-`, an on-board en passant
target, and every stored piece recording its own coordinates. -/
def SigValid (b : Board) : Bool :=
  decide (b.matrix.length = 8) &&
  b.matrix.all (fun row => decide (row.length = 8)) &&
  (decide (b.turn = ['w']) || decide (b.turn = ['b'])) &&
  b.castling.all (fun ch => (['K', 'Q', 'k', 'q', '-'] : List Char).contains ch) &&
  (match b.en_passant with
   | none => true
   | some p =>
     decide (0 ≤ p.col) && decide (p.col ≤ 7) &&
       decide (1 ≤ p.row) && decide (p.row ≤ 8)) &&
  b.matrix.enum.all (fun rr =>
    rr.2.enum.all (fun cc =>
      match cc.2 with
      | none => true
      | some p => decide (p.pos = (⟨(cc.1 : Int), 8 - (rr.1 : Int)⟩ : Pos))))

/-- `self.legal_moves` tested for emptiness (the observable the termination
test branches on first). -/
def legalMovesEmpty (g : Game) : Except Err Bool :=
  Except.map (fun l => decide (l = [])) g.legal_moves

/-- A position with plenty of legal moves and a halfmove clock at 100. -/
def fenFifty : List Char :=
  "4k3/8/8/8/8/8/8/4K2R w - - 100 42".toList

def fiftyGame : Game := gameOfFen fenFifty

/-! Helper lemmas about the Python list primitives. -/

theorem pyIdx_lt {n : Nat} {i : Int} {k : Nat} (h : pyIdx n i = some k) : k < n := by
  unfold pyIdx at h
  set j : Int := if i < 0 then i + n else i with hj
  by_cases hc : 0 ≤ j ∧ j < n
  · rw [if_pos hc] at h
    cases h
    omega
  · rw [if_neg hc] at h
    cases h

theorem pyGet_ok {α : Type} {l : List α} {i : Int} {a : α} :
    pyGet l i = .ok a ↔ ∃ k, pyIdx l.length i = some k ∧ l[k]? = some a := by
  unfold pyGet
  cases hidx : pyIdx l.length i with
  | none => simp [hidx]
  | some k =>
    cases hget : l[k]? with
    | none => simp [hidx, hget]
    | some b => simp [hidx, hget]

theorem pySet_ok {α : Type} {l : List α} {i : Int} {v : α} {l2 : List α} :
    pySet l i v = .ok l2 ↔ ∃ k, pyIdx l.length i = some k ∧ l2 = l.set k v := by
  unfold pySet
  cases hidx : pyIdx l.length i with
  | none => simp [hidx]
  | some k => simp [hidx, eq_comm]

theorem exceptBind_ok {α β : Type} {x : Except Err α} {f : α → Except Err β} {v : β} :
    (x >>= f) = .ok v ↔ ∃ a, x = .ok a ∧ f a = .ok v := by
  cases x <;> simp [Bind.bind, Except.bind]

theorem exceptBind_err {α β : Type} {x : Except Err α} {f : α → Except Err β} {e : Err} :
    (x >>= f) = .error e ↔ x = .error e ∨ ∃ a, x = .ok a ∧ f a = .error e := by
  cases x <;> simp [Bind.bind, Except.bind]

theorem list_set_self {α : Type} :
    ∀ (l : List α) (n : Nat) (a : α), l[n]? = some a → l.set n a = l
  | [], n, a, h => by simp at h
  | x :: xs, 0, a, h => by
    simp at h
    simp [List.set, h]
  | x :: xs, n + 1, a, h => by
    simp at h
    simp [List.set]
    exact list_set_self xs n a h

/-! Resolved-cell algebra for board subscription, used by the make/unmake
atomicity proof. -/

theorem getPos_ok_iff {b : Board} {q : Pos} {v : Option Piece} :
    b.getPos q = .ok v ↔
      ∃ r c row, b.cellIdx q = some (r, c) ∧ b.matrix[r]? = some row ∧
        row[c]? = some v := by
  unfold Board.getPos Board.cellIdx
  rw [exceptBind_ok]
  constructor
  · rintro ⟨row, hrow, hget⟩
    obtain ⟨r, hr, hrowget⟩ := pyGet_ok.mp hrow
    obtain ⟨c, hc, hcell⟩ := pyGet_ok.mp hget
    exact ⟨r, c, row, by simp [hr, hrowget, hc], hrowget, hcell⟩
  · rintro ⟨r, c, row, hidx, hrowget, hcell⟩
    split at hidx
    · exact absurd hidx (by simp)
    · rename_i r2 h1
      split at hidx
      · exact absurd hidx (by simp)
      · rename_i row2 h2
        split at hidx
        · exact absurd hidx (by simp)
        · rename_i c2 h3
          obtain ⟨hre, hce⟩ : r2 = r ∧ c2 = c := by simpa using hidx
          subst hre; subst hce
          rw [h2] at hrowget
          cases hrowget
          exact ⟨row, pyGet_ok.mpr ⟨r2, h1, h2⟩, pyGet_ok.mpr ⟨c2, h3, hcell⟩⟩

theorem setPos_ok_iff {b : Board} {q : Pos} {v : Option Piece} {b2 : Board} :
    b.setPos q v = .ok b2 ↔
      ∃ r c row, b.cellIdx q = some (r, c) ∧ b.matrix[r]? = some row ∧
        b2 = { b with matrix := b.matrix.set r (row.set c v) } := by
  unfold Board.setPos Board.cellIdx
  constructor
  · intro h
    split at h
    · exact absurd h (by simp)
    · rename_i r h1
      split at h
      · exact absurd h (by simp)
      · rename_i row hg
        split at h
        · exact absurd h (by simp)
        · rename_i c h3
          have hg2 := hg
          rw [List.get?_eq_getElem?] at hg2
          cases h
          exact ⟨r, c, row, by simp [h1, hg2, h3], hg2, rfl⟩
  · rintro ⟨r, c, row, hidx, hrowget, rfl⟩
    split at hidx
    · exact absurd hidx (by simp)
    · rename_i r2 h1
      split at hidx
      · exact absurd hidx (by simp)
      · rename_i row2 h2
        split at hidx
        · exact absurd hidx (by simp)
        · rename_i c2 h3
          obtain ⟨hre, hce⟩ : r2 = r ∧ c2 = c := by simpa using hidx
          subst hre; subst hce
          rw [h2] at hrowget
          cases hrowget
          simp [h2, h3]

theorem cellIdx_parts {b : Board} {q : Pos} {r c : Nat} (h : b.cellIdx q = some (r, c)) :
    pyIdx b.matrix.length (8 - q.row) = some r ∧
      ∃ row, b.matrix[r]? = some row ∧ pyIdx row.length q.col = some c := by
  unfold Board.cellIdx at h
  split at h
  · exact absurd h (by simp)
  · rename_i r2 h1
    split at h
    · exact absurd h (by simp)
    · rename_i row2 h2
      split at h
      · exact absurd h (by simp)
      · rename_i c2 h3
        obtain ⟨hre, hce⟩ : r2 = r ∧ c2 = c := by simpa using h
        subst hre; subst hce
        exact ⟨h1, row2, h2, h3⟩

theorem setPos_cellIdx {b : Board} {q : Pos} {v : Option Piece} {b2 : Board}
    (h : b.setPos q v = .ok b2) (q2 : Pos) : b2.cellIdx q2 = b.cellIdx q2 := by
  obtain ⟨r, c, row, hidx, hrow, rfl⟩ := setPos_ok_iff.mp h
  obtain ⟨h1, row2, h2, h3⟩ := cellIdx_parts hidx
  rw [h2] at hrow
  cases hrow
  have hrlt : r < b.matrix.length := pyIdx_lt h1
  unfold Board.cellIdx
  simp only [List.length_set]
  cases hn : pyIdx b.matrix.length (8 - q2.row) with
  | none => simp only [hn]
  | some r2 =>
    simp only [hn]
    by_cases hrr : r = r2
    · subst hrr
      simp only [List.getElem?_set_self hrlt, h2, List.length_set]
    · simp only [List.getElem?_set_ne hrr]

theorem setPos_fields {b : Board} {q : Pos} {v : Option Piece} {b2 : Board}
    (h : b.setPos q v = .ok b2) :
    b2.kingW = b.kingW ∧ b2.kingB = b.kingB ∧ b2.turn = b.turn ∧
      b2.en_passant = b.en_passant ∧ b2.castling = b.castling ∧
      b2.move_history = b.move_history := by
  obtain ⟨r, c, row, _, _, rfl⟩ := setPos_ok_iff.mp h
  exact ⟨rfl, rfl, rfl, rfl, rfl, rfl⟩

theorem kingsSync_only_kings (b : Board) (old new : Piece) :
    (b.kingsSync old new).matrix = b.matrix ∧
      (b.kingsSync old new).turn = b.turn ∧
      (b.kingsSync old new).en_passant = b.en_passant ∧
      (b.kingsSync old new).castling = b.castling ∧
      (b.kingsSync old new).move_history = b.move_history := by
  unfold Board.kingsSync
  split
  · split
    · exact ⟨rfl, rfl, rfl, rfl, rfl⟩
    · split
      · exact ⟨rfl, rfl, rfl, rfl, rfl⟩
      · exact ⟨rfl, rfl, rfl, rfl, rfl⟩
  · exact ⟨rfl, rfl, rfl, rfl, rfl⟩

theorem getPos_congr_matrix {b b2 : Board} (h : b2.matrix = b.matrix) (q : Pos) :
    b2.getPos q = b.getPos q := by
  unfold Board.getPos
  rw [h]

theorem setPos_congr_matrix {b b2 : Board} (h : b2.matrix = b.matrix) (q : Pos)
    (v : Option Piece) {b3 : Board} (h3 : b.setPos q v = .ok b3) :
    b2.setPos q v = .ok { b2 with matrix := b3.matrix } := by
  obtain ⟨r, c, row, hidx, hrow, rfl⟩ := setPos_ok_iff.mp h3
  apply setPos_ok_iff.mpr
  refine ⟨r, c, row, ?_, by rw [h]; exact hrow, by rw [h]⟩
  unfold Board.cellIdx at hidx ⊢
  rw [h]
  exact hidx

theorem piece_eta (p : Piece) : ({ p with pos := p.pos } : Piece) = p := rfl

theorem getElem?_isSome_lt {α : Type} {l : List α} {n : Nat} {a : α}
    (h : l[n]? = some a) : n < l.length := by
  by_contra hn
  rw [List.getElem?_eq_none (by omega)] at h
  cases h

theorem mset_mset_same {M : List (List (Option Piece))} {r c : Nat}
    {v w : Option Piece} : mset (mset M r c v) r c w = mset M r c w := by
  unfold mset
  cases h : M[r]? with
  | none => simp [h]
  | some row =>
    have hlt : r < M.length := getElem?_isSome_lt h
    simp only [h]
    rw [List.getElem?_set_self (by simpa using hlt)]
    simp only [List.set_set]

theorem mset_self {M : List (List (Option Piece))} {r c : Nat} {v : Option Piece}
    (h : mget M r c = some v) : mset M r c v = M := by
  unfold mget at h
  unfold mset
  cases hr : M[r]? with
  | none => rfl
  | some row =>
    simp only [hr] at h ⊢
    rw [list_set_self row c v h, list_set_self M r row hr]

theorem mset_comm {M : List (List (Option Piece))} {r1 c1 r2 c2 : Nat}
    {v w : Option Piece} (hne : ¬ (r1 = r2 ∧ c1 = c2)) :
    mset (mset M r1 c1 v) r2 c2 w = mset (mset M r2 c2 w) r1 c1 v := by
  by_cases hr : r1 = r2
  · subst hr
    have hc : c1 ≠ c2 := fun hc => hne ⟨rfl, hc⟩
    unfold mset
    cases h : M[r1]? with
    | none => simp [h]
    | some row =>
      have hlt : r1 < M.length := getElem?_isSome_lt h
      simp only [h]
      rw [List.getElem?_set_self (by simpa using hlt),
        List.getElem?_set_self (by simpa using hlt)]
      simp only [List.set_set]
      rw [List.set_comm _ _ _ hc]
  · unfold mset
    cases h1 : M[r1]? with
    | none =>
      cases h2 : M[r2]? with
      | none => simp [h1, h2]
      | some row2 =>
        simp only [h1, h2]
        rw [List.getElem?_set_ne (fun he => hr he.symm)]
        simp [h1]
    | some row1 =>
      cases h2 : M[r2]? with
      | none =>
        simp only [h1, h2]
        rw [List.getElem?_set_ne hr]
        simp [h2]
      | some row2 =>
        simp only [h1, h2]
        rw [List.getElem?_set_ne hr]
        rw [List.getElem?_set_ne (fun he => hr he.symm)]
        simp only [h1, h2]
        exact List.set_comm _ _ _ hr

/-- The five-write sequence performed by a legality probe restores the matrix:
clear origin, write moved piece, clear destination, restore origin, restore
captured occupant. -/
theorem mset_restore {M : List (List (Option Piece))} {r1 c1 r2 c2 : Nat}
    {p p2 : Piece} {cap : Option Piece}
    (hv1 : mget M r1 c1 = some (some p)) (hv2 : mget M r2 c2 = some cap) :
    mset (mset (mset (mset (mset M r1 c1 none) r2 c2 (some p2)) r2 c2 none)
      r1 c1 (some p)) r2 c2 cap = M := by
  by_cases hsame : r1 = r2 ∧ c1 = c2
  · obtain ⟨hr, hc⟩ := hsame
    subst hr; subst hc
    rw [mset_mset_same, mset_mset_same, mset_mset_same, mset_mset_same]
    rw [hv1] at hv2
    cases hv2
    exact mset_self hv1
  · have hA : mset (mset (mset M r1 c1 none) r2 c2 (some p2)) r2 c2 none
        = mset (mset M r1 c1 none) r2 c2 none := mset_mset_same
    rw [hA]
    have hB : mset (mset (mset M r1 c1 none) r2 c2 none) r1 c1 (some p)
        = mset (mset (mset M r1 c1 none) r1 c1 (some p)) r2 c2 none :=
      mset_comm (fun hc => hsame ⟨hc.1.symm, hc.2.symm⟩)
    rw [hB]
    have hC : mset (mset M r1 c1 none) r1 c1 (some p) = mset M r1 c1 (some p) :=
      mset_mset_same
    rw [hC, mset_self hv1, mset_mset_same]
    exact mset_self hv2

theorem setPos_matrix_mset {b : Board} {q : Pos} {v : Option Piece} {b2 : Board}
    {r c : Nat} (h : b.setPos q v = .ok b2) (hidx : b.cellIdx q = some (r, c)) :
    b2.matrix = mset b.matrix r c v := by
  obtain ⟨r2, c2, row, hidx2, hrow, rfl⟩ := setPos_ok_iff.mp h
  rw [hidx] at hidx2
  obtain ⟨hre, hce⟩ : r2 = r ∧ c2 = c := by simpa using hidx2.symm
  subst hre; subst hce
  unfold mset
  rw [hrow]

theorem cellIdx_congr_matrix {b b2 : Board} (h : b2.matrix = b.matrix) (q : Pos) :
    b2.cellIdx q = b.cellIdx q := by
  unfold Board.cellIdx
  rw [h]

theorem board_ext {b b2 : Board} (h1 : b2.matrix = b.matrix)
    (h2 : b2.kingW = b.kingW) (h3 : b2.kingB = b.kingB) (h4 : b2.turn = b.turn)
    (h5 : b2.en_passant = b.en_passant) (h6 : b2.castling = b.castling)
    (h7 : b2.move_history = b.move_history) : b2 = b := by
  cases b2
  cases b
  simp_all

theorem can_move_true_not_castle {b : Board} {p : Piece} {pos : Pos}
    (h : can_move b p pos = .ok true) :
    ¬ (p.kind = .king ∧ (p.pos.diff pos).1.natAbs = 2) := by
  rintro ⟨hk, habs⟩
  unfold can_move at h
  rw [hk] at h
  unfold King.can_move at h
  rw [exceptBind_ok] at h
  obtain ⟨sqr, _, hok⟩ := h
  have hcond := Except.ok.inj hok
  have hle : (pos.diff p.pos).1.natAbs ≤ 1 := by
    by_contra hgt
    simp [hgt] at hcond
  have : (p.pos.diff pos).1 = -((pos.diff p.pos).1) := by
    unfold Pos.diff
    ring
  rw [this, Int.natAbs_neg] at habs
  omega

/-! Error classification: the engine core can only raise Python runtime
errors (`IndexError`, `KeyError`, `RuntimeError`), never the input-validation
exceptions. -/

theorem pyGet_err {α : Type} {l : List α} {i : Int} {e : Err}
    (h : pyGet l i = .error e) : e = .indexError := by
  unfold pyGet at h
  split at h
  · split at h
    · cases h
    · cases h
      rfl
  · cases h
    rfl

theorem getPos_err {b : Board} {q : Pos} {e : Err} (h : b.getPos q = .error e) :
    e = .indexError := by
  unfold Board.getPos at h
  cases h1 : pyGet b.matrix (8 - q.row) with
  | error e2 =>
    rw [h1] at h
    cases h
    exact pyGet_err h1
  | ok row =>
    rw [h1] at h
    exact pyGet_err h

theorem setPos_err {b : Board} {q : Pos} {v : Option Piece} {e : Err}
    (h : b.setPos q v = .error e) : e = .indexError := by
  unfold Board.setPos at h
  split at h
  · cases h; rfl
  · split at h
    · cases h; rfl
    · split at h
      · cases h; rfl
      · cases h

theorem isPyErrOf {e : Err} (h : e = .indexError ∨ e = .keyError ∨ e = .runtimeError) :
    e ≠ .invalidMoveInput ∧ e ≠ .illegalMove := by
  rcases h with h | h | h <;> subst h <;> exact ⟨by simp, by simp⟩

theorem pathScan_err {b : Board} {base : Pos} {sx sy : Int} {e : Err} :
    ∀ {l : List Nat}, pathScan b base sx sy l = .error e → e = .indexError := by
  intro l
  induction l with
  | nil => intro h; cases h
  | cons i rest ih =>
    intro h
    unfold pathScan at h
    cases h1 : b.getPos (base.add (i * sx) (i * sy)) with
    | error e2 =>
      rw [h1] at h
      cases h
      exact getPos_err h1
    | ok sq =>
      rw [h1] at h
      cases sq with
      | some q => cases h
      | none =>
        exact ih h

theorem checkPathRook_err {b : Board} {p : Piece} {pos : Pos} {e : Err}
    (h : Rook.check_path b p pos = .error e) : e = .indexError := by
  unfold Rook.check_path at h
  dsimp only at h
  rw [exceptBind_err] at h
  rcases h with h | ⟨c1, hc1, h⟩
  · exact pathScan_err h
  · split at h
    · cases h
    · rw [exceptBind_err] at h
      rcases h with h | ⟨c2, hc2, h⟩
      · exact pathScan_err h
      · split at h
        · cases h
        · rw [exceptBind_err] at h
          rcases h with h | ⟨sq, hsq, h⟩
          · exact getPos_err h
          · cases h

theorem can_move_err {b : Board} {p : Piece} {pos : Pos} {e : Err}
    (h : can_move b p pos = .error e) : e = .indexError := by
  unfold can_move at h
  split at h
  · unfold Pawn.can_move at h
    rw [exceptBind_err] at h
    rcases h with h | ⟨sqr, hsqr, h⟩
    · exact getPos_err h
    · split at h
      · cases h
      · split at h
        · split at h
          · cases h
          · split at h
            · cases h
            · split at h
              · rw [exceptBind_err] at h
                rcases h with h | ⟨mid, hmid, h⟩
                · exact getPos_err h
                · cases h
              · cases h
        · split at h
          · cases h
          · split at h
            · cases h
            · split at h
              · rw [exceptBind_err] at h
                rcases h with h | ⟨mid, hmid, h⟩
                · exact getPos_err h
                · cases h
              · cases h
  · unfold Knight.can_move at h
    rw [exceptBind_err] at h
    rcases h with h | ⟨sqr, hsqr, h⟩
    · exact getPos_err h
    · split at h <;> (try dsimp only at h) <;>
        first | cases h | (split at h <;> cases h)
  · unfold Bishop.can_move at h
    dsimp only at h
    split at h
    · unfold Bishop.check_path at h
      dsimp only at h
      rw [exceptBind_err] at h
      rcases h with h | ⟨c1, hc1, h⟩
      · exact pathScan_err h
      · split at h
        · cases h
        · rw [exceptBind_err] at h
          rcases h with h | ⟨sq, hsq, h⟩
          · exact getPos_err h
          · cases h
    · cases h
  · unfold Rook.can_move at h
    dsimp only at h
    split at h
    · exact checkPathRook_err h
    · cases h
  · unfold Queen.can_move at h
    dsimp only at h
    split at h
    · exact checkPathRook_err h
    · cases h
  · unfold King.can_move at h
    rw [exceptBind_err] at h
    rcases h with h | ⟨sqr, hsqr, h⟩
    · exact getPos_err h
    · cases h

theorem isAttackedAux_err {b : Board} {pos : Pos} {c : Color} :
    ∀ {l : List (Option Piece)} {e : Err},
      isAttackedAux b pos c l = .error e → e = .indexError := by
  intro l
  induction l with
  | nil => intro e h; cases h
  | cons cell rest ih =>
    intro e h
    cases cell with
    | none =>
      simp only [isAttackedAux] at h
      exact ih h
    | some p =>
      simp only [isAttackedAux] at h
      split at h
      · rw [exceptBind_err] at h
        rcases h with h | ⟨hit, hhit, h⟩
        · split at h
          · cases h
          · exact can_move_err h
        · split at h
          · cases h
          · exact ih h
      · exact ih h

theorem is_attacked_err {b : Board} {pos : Pos} {c : Color} {e : Err}
    (h : b.is_attacked pos c = .error e) : e = .indexError :=
  isAttackedAux_err h

theorem colorMap_err {t : List Char} {e : Err} (h : colorMap t = .error e) :
    e = .keyError := by
  unfold colorMap at h
  split at h
  · cases h
  · split at h
    · cases h
    · cases h; rfl

theorem get_king_err {b : Board} {c : Color} {e : Err} (h : b.get_king c = .error e) :
    e = .keyError := by
  unfold Board.get_king at h
  split at h
  · cases h
  · cases h; rfl

theorem is_check_err {b : Board} {e : Err} (h : b.is_check = .error e) :
    e = .keyError ∨ e = .indexError := by
  unfold Board.is_check at h
  rw [exceptBind_err] at h
  rcases h with h | ⟨c1, hc1, h⟩
  · exact Or.inl (colorMap_err h)
  · rw [exceptBind_err] at h
    rcases h with h | ⟨c2, hc2, h⟩
    · exact Or.inl (colorMap_err h)
    · rw [exceptBind_err] at h
      rcases h with h | ⟨k, hk, h⟩
      · exact Or.inl (get_king_err h)
      · exact Or.inr (is_attacked_err h)

theorem delPos_err {b : Board} {q : Pos} {e : Err} (h : b.delPos q = .error e) :
    e = .indexError := by
  unfold Board.delPos at h
  exact setPos_err h

theorem board_move_err {b : Board} {p : Piece} {pos : Pos} {e : Err}
    (h : b.move p pos = .error e) : e = .indexError ∨ e = .runtimeError := by
  unfold Board.move at h
  split at h
  · rw [exceptBind_err] at h
    rcases h with h | ⟨rook, hrook, h⟩
    · split at h
      · exact Or.inl (getPos_err h)
      · exact Or.inl (getPos_err h)
    · dsimp only at h
      split at h
      · split at h
        · rw [exceptBind_err] at h
          rcases h with h | ⟨b1, h1, h⟩
          · exact Or.inl (delPos_err h)
          · rw [exceptBind_err] at h
            rcases h with h | ⟨b2, h2, h⟩
            · exact Or.inl (delPos_err h)
            · rw [exceptBind_err] at h
              rcases h with h | ⟨b4, h4, h⟩
              · exact Or.inl (setPos_err h)
              · rw [exceptBind_err] at h
                rcases h with h | ⟨b5, h5, h⟩
                · exact Or.inl (setPos_err h)
                · cases h
        · cases h; exact Or.inr rfl
      · cases h; exact Or.inr rfl
  · rw [exceptBind_err] at h
    rcases h with h | ⟨b1, h1, h⟩
    · exact Or.inl (delPos_err h)
    · rw [exceptBind_err] at h
      rcases h with h | ⟨b3, h3, h⟩
      · exact Or.inl (setPos_err h)
      · cases h

/-- Errors raised by the engine core are Python runtime errors. -/
def PyRuntimeErr (e : Err) : Prop :=
  e = .indexError ∨ e = .keyError ∨ e = .runtimeError

theorem is_legal_err {b : Board} {p : Piece} {pos : Pos} {e : Err}
    (h : is_legal b p pos = .error e) : PyRuntimeErr e := by
  unfold is_legal at h
  rw [exceptBind_err] at h
  rcases h with h | ⟨cm, hcm, h⟩
  · exact Or.inl (can_move_err h)
  · split at h
    · cases h
    · rw [exceptBind_err] at h
      rcases h with h | ⟨cap, hcap, h⟩
      · exact Or.inl (getPos_err h)
      · rw [exceptBind_err] at h
        rcases h with h | ⟨m1, hm1, h⟩
        · rcases board_move_err h with h | h
          exacts [Or.inl h, Or.inr (Or.inr h)]
        · rw [exceptBind_err] at h
          rcases h with h | ⟨chk, hchk, h⟩
          · rcases is_check_err h with h | h
            exacts [Or.inr (Or.inl h), Or.inl h]
          · rw [exceptBind_err] at h
            rcases h with h | ⟨m2, hm2, h⟩
            · rcases board_move_err h with h | h
              exacts [Or.inl h, Or.inr (Or.inr h)]
            · rw [exceptBind_err] at h
              rcases h with h | ⟨b3, hb3, h⟩
              · exact Or.inl (setPos_err h)
              · cases h

theorem foldlM_err {α β : Type} (P : Err → Prop) {f : β → α → Except Err β}
    (hf : ∀ b a e, f b a = .error e → P e) :
    ∀ (l : List α) (b : β) {e : Err}, l.foldlM f b = .error e → P e := by
  intro l
  induction l with
  | nil =>
    intro b e h
    rw [List.foldlM_nil] at h
    cases h
  | cons a rest ih =>
    intro b e h
    rw [List.foldlM_cons] at h
    rw [exceptBind_err] at h
    rcases h with h | ⟨b2, hb2, h⟩
    · exact hf b a e h
    · exact ih b2 h

theorem ulmProbe_err {st : Board × Piece × List Pos} {tmp : Pos} {e : Err}
    (h : ulmProbe st tmp = .error e) : PyRuntimeErr e := by
  unfold ulmProbe at h
  rw [exceptBind_err] at h
  rcases h with h | ⟨r, hr, h⟩
  · exact is_legal_err h
  · cases h

theorem ulmPiece_err {b : Board} {coord : Nat × Nat} {p : Piece} {e : Err}
    (h : ulmPiece b coord p = .error e) : PyRuntimeErr e := by
  unfold ulmPiece at h
  dsimp only at h
  rw [exceptBind_err] at h
  rcases h with h | ⟨res, hres, h⟩
  · exact foldlM_err PyRuntimeErr (fun st tmp e he => ulmProbe_err he) posOrder _ h
  · cases h

theorem update_legal_moves_err {g : Game} {e : Err}
    (h : update_legal_moves g = .error e) : PyRuntimeErr e := by
  unfold update_legal_moves at h
  dsimp only at h
  rw [exceptBind_err] at h
  rcases h with h | ⟨bF, hbF, h⟩
  · refine foldlM_err PyRuntimeErr ?_ _ _ h
    intro b entry e2 h2
    rw [exceptBind_err] at h2
    rcases h2 with h2 | ⟨tc, htc, h2⟩
    · exact Or.inr (Or.inl (colorMap_err h2))
    · split at h2
      · cases h2
      · exact ulmPiece_err h2
  · cases h

theorem legal_moves_err {g : Game} {e : Err} (h : g.legal_moves = .error e) :
    e = .keyError := by
  unfold Game.legal_moves at h
  refine foldlM_err (fun x => x = Err.keyError) ?_ _ _ h
  intro acc cell e2 h2
  cases cell with
  | none => cases h2
  | some p =>
    rw [exceptBind_err] at h2
    rcases h2 with h2 | ⟨tc, htc, h2⟩
    · exact colorMap_err h2
    · split at h2 <;> cases h2

theorem is_triple_repetition_err {b : Board} {e : Err}
    (h : b.is_triple_repetition = .error e) : e = .indexError := by
  unfold Board.is_triple_repetition at h
  split at h
  · cases h; rfl
  · cases h

theorem game_over_err {g : Game} {e : Err}
    (h : game_over g = .error e) : PyRuntimeErr e := by
  unfold game_over at h
  rw [exceptBind_err] at h
  rcases h with h | ⟨lm, hlm, h⟩
  · exact Or.inr (Or.inl (legal_moves_err h))
  · split at h
    · rw [exceptBind_err] at h
      rcases h with h | ⟨chk, hchk, h⟩
      · rcases is_check_err h with h | h
        exacts [Or.inr (Or.inl h), Or.inl h]
      · split at h
        · rw [exceptBind_err] at h
          rcases h with h | ⟨w, hw, h⟩
          · exact Or.inr (Or.inl (colorMap_err h))
          · cases h
        · cases h
    · split at h
      · cases h
      · rw [exceptBind_err] at h
        rcases h with h | ⟨rep, hrep, h⟩
        · exact Or.inl (is_triple_repetition_err h)
        · split at h
          · cases h
          · split at h <;> cases h

theorem move_commit_outcome {g : Game} {piece : Piece} {pos : Pos}
    {cap : Option Piece} {ep : Bool} :
    (move_commit g piece pos cap ep).1 ≠ .err .invalidMoveInput ∧
      (move_commit g piece pos cap ep).1 ≠ .err .illegalMove := by
  unfold move_commit
  dsimp only
  split
  · rename_i e hbm
    rcases board_move_err hbm with h | h <;> subst h <;> exact ⟨by simp, by simp⟩
  · split
    · rename_i e hulm
      rcases update_legal_moves_err hulm with h | h | h <;> subst h <;>
        exact ⟨by simp, by simp⟩
    · split
      · rename_i e hgo
        rcases game_over_err hgo with h | h | h <;> subst h <;> exact ⟨by simp, by simp⟩
      · rename_i hgo
        exact ⟨by simp, by simp⟩
      · rename_i hgo
        exact ⟨by simp, by simp⟩

/-- C1: for every legality probe `is_legal(piece, pos)` that returns (legal or
not), the board's grid contents, the kings dictionary, every auxiliary field,
and the probed piece's recorded position are identical to their pre-probe
state: the captured occupant is restored at `pos` and the probed piece is back
at its previous position. -/
theorem C1_is_legal_atomic (b : Board) (p : Piece) (pos : Pos)
    (res : Bool × Board × Piece)
    (hcell : b.getPos p.pos = .ok (some p))
    (hking : p.kind = Kind.king →
      (if p.color = Color.white then b.kingW = some p else b.kingB = some p))
    (h : is_legal b p pos = .ok res) :
    res.2.1 = b ∧ res.2.2 = p := by
  unfold is_legal at h
  rw [exceptBind_ok] at h
  obtain ⟨cm, hcm, h⟩ := h
  cases cm with
  | false =>
    rw [if_pos (by simp)] at h
    have hres := Except.ok.inj h
    rw [← hres]
    exact ⟨rfl, rfl⟩
  | true =>
    rw [if_neg (by simp)] at h
    rw [exceptBind_ok] at h
    obtain ⟨cap, hcap, h⟩ := h
    rw [exceptBind_ok] at h
    obtain ⟨m1, hmv1, h⟩ := h
    rw [exceptBind_ok] at h
    obtain ⟨chk, hchk, h⟩ := h
    rw [exceptBind_ok] at h
    obtain ⟨m2, hmv2, h⟩ := h
    rw [exceptBind_ok] at h
    obtain ⟨bF, hsetF, h⟩ := h
    have hres : res = (!chk, bF, m2.2) := (Except.ok.inj h).symm
    subst hres
    have hnc1 : ¬ (p.kind = Kind.king ∧ (p.pos.diff pos).1.natAbs = 2) :=
      can_move_true_not_castle hcm
    unfold Board.move at hmv1
    rw [if_neg hnc1] at hmv1
    rw [exceptBind_ok] at hmv1
    obtain ⟨b1, hdel1, hmv1⟩ := hmv1
    rw [exceptBind_ok] at hmv1
    obtain ⟨b3a, hset1, hmv1⟩ := hmv1
    have hm1 : m1 = (b3a, { p with pos := pos }) := (Except.ok.inj hmv1).symm
    subst hm1
    have hnc2 : ¬ (({ p with pos := pos } : Piece).kind = Kind.king ∧
        (({ p with pos := pos } : Piece).pos.diff p.pos).1.natAbs = 2) := by
      rintro ⟨hk, ha⟩
      apply hnc1
      refine ⟨hk, ?_⟩
      have hswap : (p.pos.diff pos).1 = -((pos.diff p.pos).1) := by
        unfold Pos.diff
        ring
      rw [hswap, Int.natAbs_neg]
      exact ha
    unfold Board.move at hmv2
    rw [if_neg hnc2] at hmv2
    rw [exceptBind_ok] at hmv2
    obtain ⟨bd, hdel2, hmv2⟩ := hmv2
    rw [exceptBind_ok] at hmv2
    obtain ⟨bs, hset2, hmv2⟩ := hmv2
    have hm2 : m2 = (bs, { ({ p with pos := pos } : Piece) with pos := p.pos }) :=
      (Except.ok.inj hmv2).symm
    subst hm2
    have hp3 : ({ ({ p with pos := pos } : Piece) with pos := p.pos } : Piece) = p := rfl
    unfold Board.delPos at hdel1 hdel2
    obtain ⟨r1, c1, row1, hidx1, hrow1, hcell1⟩ := getPos_ok_iff.mp hcell
    obtain ⟨r2, c2, row2, hidx2, hrow2, hcell2⟩ := getPos_ok_iff.mp hcap
    have hv1 : mget b.matrix r1 c1 = some (some p) := by
      unfold mget
      simp only [hrow1]
      exact hcell1
    have hv2 : mget b.matrix r2 c2 = some cap := by
      unfold mget
      simp only [hrow2]
      exact hcell2
    have hsy1m : (b1.kingsSync p { p with pos := pos }).matrix = b1.matrix :=
      (kingsSync_only_kings _ _ _).1
    have hsy2m :
        (bd.kingsSync { p with pos := pos }
          { ({ p with pos := pos } : Piece) with pos := p.pos }).matrix = bd.matrix :=
      (kingsSync_only_kings _ _ _).1
    have hM1 : b1.matrix = mset b.matrix r1 c1 none := setPos_matrix_mset hdel1 hidx1
    have hci1 : (b1.kingsSync p { p with pos := pos }).cellIdx pos = some (r2, c2) := by
      rw [cellIdx_congr_matrix hsy1m, setPos_cellIdx hdel1]
      exact hidx2
    have hM2 : b3a.matrix = mset b1.matrix r2 c2 (some { p with pos := pos }) := by
      have hx := setPos_matrix_mset hset1 hci1
      rw [hx]
      unfold mset
      rw [hsy1m]
    have hci2 : b3a.cellIdx pos = some (r2, c2) := by
      rw [setPos_cellIdx hset1]
      exact hci1
    have hM3 : bd.matrix = mset b3a.matrix r2 c2 none := setPos_matrix_mset hdel2 hci2
    have hci3 :
        (bd.kingsSync { p with pos := pos }
          { ({ p with pos := pos } : Piece) with pos := p.pos }).cellIdx p.pos
          = some (r1, c1) := by
      rw [cellIdx_congr_matrix hsy2m, setPos_cellIdx hdel2, setPos_cellIdx hset1,
        cellIdx_congr_matrix hsy1m, setPos_cellIdx hdel1]
      exact hidx1
    have hM4 : bs.matrix
        = mset bd.matrix r1 c1 (some { ({ p with pos := pos } : Piece) with pos := p.pos }) := by
      have hx := setPos_matrix_mset hset2 hci3
      rw [hx]
      unfold mset
      rw [hsy2m]
    have hci4 : bs.cellIdx pos = some (r2, c2) := by
      rw [setPos_cellIdx hset2, cellIdx_congr_matrix hsy2m, setPos_cellIdx hdel2]
      exact hci2
    have hM5 : bF.matrix = mset bs.matrix r2 c2 cap := setPos_matrix_mset hsetF hci4
    have hmat : bF.matrix = b.matrix := by
      rw [hM5, hM4, hM3, hM2, hM1, hp3]
      exact mset_restore hv1 hv2
    refine ⟨?_, hp3⟩
    -- auxiliary fields are never touched
    have ft1 := setPos_fields hdel1
    have ft2 := setPos_fields hset1
    have ft3 := setPos_fields hdel2
    have ft4 := setPos_fields hset2
    have ft5 := setPos_fields hsetF
    have fk1 := kingsSync_only_kings b1 p { p with pos := pos }
    have fk2 := kingsSync_only_kings bd { p with pos := pos }
      { ({ p with pos := pos } : Piece) with pos := p.pos }
    have hturn : bF.turn = b.turn := by
      rw [ft5.2.2.1, ft4.2.2.1, fk2.2.1, ft3.2.2.1, ft2.2.2.1, fk1.2.1, ft1.2.2.1]
    have hep : bF.en_passant = b.en_passant := by
      rw [ft5.2.2.2.1, ft4.2.2.2.1, fk2.2.2.1, ft3.2.2.2.1, ft2.2.2.2.1, fk1.2.2.1,
        ft1.2.2.2.1]
    have hcast : bF.castling = b.castling := by
      rw [ft5.2.2.2.2.1, ft4.2.2.2.2.1, fk2.2.2.2.1, ft3.2.2.2.2.1, ft2.2.2.2.2.1,
        fk1.2.2.2.1, ft1.2.2.2.2.1]
    have hhist : bF.move_history = b.move_history := by
      rw [ft5.2.2.2.2.2, ft4.2.2.2.2.2, fk2.2.2.2.2, ft3.2.2.2.2.2, ft2.2.2.2.2.2,
        fk1.2.2.2.2, ft1.2.2.2.2.2]
    -- the kings dictionary round-trips through the two syncs
    by_cases hpk : p.kind = Kind.king
    · by_cases hpc : p.color = Color.white
      · have hbW : b.kingW = some p := by
          have hx := hking hpk
          rw [if_pos hpc] at hx
          exact hx
        have hsy1 : b1.kingsSync p { p with pos := pos }
            = { b1 with kingW := some { p with pos := pos } } := by
          unfold Board.kingsSync
          rw [if_pos hpk, if_pos ⟨hpc, by rw [ft1.1, hbW]⟩]
        have hb3aW : b3a.kingW = some { p with pos := pos } := by
          rw [ft2.1, hsy1]
        have hb3aB : b3a.kingB = b.kingB := by
          rw [ft2.2.1, hsy1]
          show b1.kingB = b.kingB
          rw [ft1.2.1]
        have hsy2 : bd.kingsSync { p with pos := pos }
            { ({ p with pos := pos } : Piece) with pos := p.pos }
            = { bd with kingW := some p } := by
          unfold Board.kingsSync
          rw [if_pos (show ({ p with pos := pos } : Piece).kind = Kind.king from hpk),
            if_pos ⟨show ({ p with pos := pos } : Piece).color = Color.white from hpc,
              by rw [ft3.1, hb3aW]⟩]
        have hkW : bF.kingW = b.kingW := by
          rw [ft5.1, ft4.1, hsy2]
          show some p = b.kingW
          rw [hbW]
        have hkB : bF.kingB = b.kingB := by
          rw [ft5.2.1, ft4.2.1, hsy2]
          show bd.kingB = b.kingB
          rw [ft3.2.1, hb3aB]
        exact board_ext hmat hkW hkB hturn hep hcast hhist
      · have hbB : b.kingB = some p := by
          have hx := hking hpk
          rw [if_neg hpc] at hx
          exact hx
        have hpcb : p.color = Color.black := by
          cases hcol : p.color
          · exact absurd hcol hpc
          · rfl
        have hsy1 : b1.kingsSync p { p with pos := pos }
            = { b1 with kingB := some { p with pos := pos } } := by
          unfold Board.kingsSync
          rw [if_pos hpk, if_neg (fun hx => hpc hx.1),
            if_pos ⟨hpcb, by rw [ft1.2.1, hbB]⟩]
        have hb3aB : b3a.kingB = some { p with pos := pos } := by
          rw [ft2.2.1, hsy1]
        have hb3aW : b3a.kingW = b.kingW := by
          rw [ft2.1, hsy1]
          show b1.kingW = b.kingW
          rw [ft1.1]
        have hsy2 : bd.kingsSync { p with pos := pos }
            { ({ p with pos := pos } : Piece) with pos := p.pos }
            = { bd with kingB := some p } := by
          unfold Board.kingsSync
          rw [if_pos (show ({ p with pos := pos } : Piece).kind = Kind.king from hpk),
            if_neg (fun hx => hpc hx.1),
            if_pos ⟨show ({ p with pos := pos } : Piece).color = Color.black from hpcb,
              by rw [ft3.2.1, hb3aB]⟩]
        have hkB : bF.kingB = b.kingB := by
          rw [ft5.2.1, ft4.2.1, hsy2]
          show some p = b.kingB
          rw [hbB]
        have hkW : bF.kingW = b.kingW := by
          rw [ft5.1, ft4.1, hsy2]
          show bd.kingW = b.kingW
          rw [ft3.1, hb3aW]
        exact board_ext hmat hkW hkB hturn hep hcast hhist
    · have hsy1 : b1.kingsSync p { p with pos := pos } = b1 := by
        unfold Board.kingsSync
        rw [if_neg hpk]
      have hsy2 : bd.kingsSync { p with pos := pos }
          { ({ p with pos := pos } : Piece) with pos := p.pos } = bd := by
        unfold Board.kingsSync
        rw [if_neg (show ¬ ({ p with pos := pos } : Piece).kind = Kind.king from hpk)]
      have hkW : bF.kingW = b.kingW := by
        rw [ft5.1, ft4.1, hsy2, ft3.1, ft2.1, hsy1, ft1.1]
      have hkB : bF.kingB = b.kingB := by
        rw [ft5.2.1, ft4.2.1, hsy2, ft3.2.1, ft2.2.1, hsy1, ft1.2.1]
      exact board_ext hmat hkW hkB hturn hep hcast hhist

/-- C4 (amended): whenever `move` raises `InvalidMoveInput` or `IllegalMove`,
the whole game state (board grid, piece positions and kinds, turn, castling
rights, en passant target, halfmove clock, fullmove number, move history) is
unchanged — except that a pawn move reaching rank 1 or 8 without a promotion
suffix, or a move onto the recorded en passant target with no capturable pawn,
first zeroes the halfmove clock: on those two paths the post-call state is the
pre-call state with halfmove clock 0 and everything else unchanged. -/
theorem C4_move_error_atomic (g : Game) (mv : List Char) (out : Outcome) (g2 : Game)
    (hmove : StandardGame.move g mv = (out, g2))
    (herr : out = .err .invalidMoveInput ∨ out = .err .illegalMove) :
    g2 = g ∨ g2 = { g with halfmove := 0 } := by
  unfold StandardGame.move at hmove
  split at hmove
  · cases hmove
    exact Or.inl rfl
  · rename_i piece pos captured promo hp
    repeat' (first | (split at hmove) | (dsimp only at hmove))
    all_goals
      first
        | (have h1 := congrArg Prod.fst hmove
           rcases herr with h | h <;> rw [h] at h1
           exacts [absurd h1 move_commit_outcome.1, absurd h1 move_commit_outcome.2])
        | (cases hmove
           rcases herr with h | h <;> injection h with he <;> subst he <;>
             first
               | exact absurd (getPos_err (by assumption)) (by simp)
               | exact absurd (delPos_err (by assumption)) (by simp))
        | (cases hmove
           exact Or.inr rfl)

/-- C4, counterexample to the claim as stated: from the position
`4k3/6P1/8/8/8/8/8/4K3 w - - 5 1`, the move `g8` (promotion square, no
promotion suffix) raises `InvalidMoveInput`, yet the game state has changed:
the halfmove clock was zeroed from 5. -/
theorem C4_counterexample :
    (StandardGame.move promoGame ['g', '8']).1 = .err .invalidMoveInput ∧
      promoGame.halfmove = 5 ∧
      (StandardGame.move promoGame ['g', '8']).2.halfmove = 0 ∧
      (StandardGame.move promoGame ['g', '8']).2 ≠ promoGame := by
  refine ⟨rfl, rfl, rfl, ?_⟩
  intro heq
  have h5 : promoGame.halfmove = 5 := rfl
  have h0 : (StandardGame.move promoGame ['g', '8']).2.halfmove = 0 := rfl
  rw [heq, h5] at h0
  cases h0

/-- Witness for C4: the amended theorem applied at the concrete promotion
scenario. -/
theorem C4_witness :
    StandardGame.move promoGame ['g', '8']
        = (.err .invalidMoveInput, { promoGame with halfmove := 0 }) ∧
      ({ promoGame with halfmove := 0 } = promoGame ∨
        { promoGame with halfmove := 0 } = { promoGame with halfmove := 0 }) :=
  ⟨rfl, C4_move_error_atomic promoGame ['g', '8'] (.err .invalidMoveInput)
    { promoGame with halfmove := 0 } rfl (Or.inl rfl)⟩

/-- Witness for C1: a probe of the white rook a1 toward a3 on a concrete
board returns legal and hands back the unchanged board and piece. -/
theorem C1_witness :
    probeBoard.getPos probeRook.pos = .ok (some probeRook) ∧
      is_legal probeBoard probeRook ⟨0, 3⟩ = .ok (true, probeBoard, probeRook) ∧
      ((true, probeBoard, probeRook) : Bool × Board × Piece).2.1 = probeBoard ∧
      ((true, probeBoard, probeRook) : Bool × Board × Piece).2.2 = probeRook := by
  refine ⟨rfl, rfl, ?_, ?_⟩
  · exact (C1_is_legal_atomic probeBoard probeRook ⟨0, 3⟩ (true, probeBoard, probeRook)
      rfl (by decide) rfl).1
  · exact (C1_is_legal_atomic probeBoard probeRook ⟨0, 3⟩ (true, probeBoard, probeRook)
      rfl (by decide) rfl).2

/-- C2: `Pawn.can_move` evaluated at the failing input — the white pawn on e4
reports a pseudo-legal move onto d5 although d5 is occupied by a piece of the
pawn's own colour (the white knight), because the occupied-destination branch
delegates to `can_capture` without any colour check. -/
theorem C2_pawn_own_capture :
    can_move ownCaptureBoard ownCapturePawn ⟨3, 5⟩ = .ok true ∧
      ownCaptureBoard.getPos ⟨3, 5⟩ = .ok (some ownCaptureKnight) ∧
      ownCaptureKnight.color = ownCapturePawn.color :=
  ⟨rfl, rfl, rfl⟩

/-- C3: `parse_fen` evaluated at the failing input — the ordinary FEN of the
position after 1.e4 is rejected with `InvalidFen`, because the assertion
`self.en_passant in '-abcdefgh36'` is a substring test and `'e3'` is not a
substring of `'-abcdefgh36'`. -/
theorem C3_e3_fen_rejected : parse_fen fenAfterE4 = .error .invalidFen := rfl

/-- C5: the code evaluated at the failing input — in the starting position
`h4` is a collected legal move, yet committing it raises `IndexError`: the
en passant adjacency check reads `board[pos + (1, 0)]`, which is column `i`
for a double advance to the h-file. -/
theorem C5_h4_crashes :
    (match startGame.legal_moves with
      | .ok lm => lm.contains ['h', '4']
      | .error _ => false) = true ∧
      (StandardGame.move startGame ['h', '4']).1 = .err .indexError :=
  ⟨rfl, rfl⟩

/-- C9: constructing a `StandardGame` from the starting FEN yields exactly 20
collected legal moves for White. -/
theorem C9_start_has_twenty_moves :
    (match parse_fen startFen with
      | .ok g => g.legal_moves
      | .error e => .error e).map List.length = .ok 20 := rfl

theorem isAttackedAux_spec {b : Board} {pos : Pos} {c : Color} :
    ∀ {l : List (Option Piece)} {res : Bool},
      isAttackedAux b pos c l = .ok res →
        (res = true ↔ ∃ p ∈ l.filterMap (@id (Option Piece)), p.color = c ∧
          (if p.kind = Kind.pawn then Pawn.can_capture p pos = true
           else can_move b p pos = .ok true)) := by
  intro l
  induction l with
  | nil =>
    intro res h
    simp only [isAttackedAux] at h
    cases h
    simp
  | cons cell rest ih =>
    intro res h
    cases cell with
    | none =>
      simp only [isAttackedAux] at h
      rw [ih h]
      simp
    | some p =>
      simp only [isAttackedAux] at h
      split at h
      · rename_i hcol
        rw [exceptBind_ok] at h
        obtain ⟨hit, hhit, h⟩ := h
        cases hit with
        | true =>
          rw [if_pos rfl] at h
          cases h
          constructor
          · intro _
            refine ⟨p, by simp, hcol, ?_⟩
            split at hhit
            · rename_i hk
              rw [if_pos hk]
              exact Except.ok.inj hhit
            · rename_i hk
              rw [if_neg hk]
              exact hhit
          · intro _
            rfl
        | false =>
          rw [if_neg (by simp)] at h
          rw [ih h]
          constructor
          · intro hex
            obtain ⟨q, hq, hqc, hqt⟩ := hex
            exact ⟨q, by simp [hq], hqc, hqt⟩
          · rintro ⟨q, hq, hqc, hqt⟩
            simp only [List.filterMap_cons, id_eq] at hq
            rcases (List.mem_cons.mp hq) with hq | hq
            · subst hq
              exfalso
              split at hhit
              · rename_i hk
                rw [if_pos hk] at hqt
                rw [hqt] at hhit
                cases hhit
              · rename_i hk
                rw [if_neg hk] at hqt
                rw [hqt] at hhit
                cases hhit
            · exact ⟨q, hq, hqc, hqt⟩
      · rename_i hcol
        rw [ih h]
        constructor
        · rintro ⟨q, hq, hqc, hqt⟩
          exact ⟨q, by simp [hq], hqc, hqt⟩
        · rintro ⟨q, hq, hqc, hqt⟩
          simp only [List.filterMap_cons, id_eq] at hq
          rcases (List.mem_cons.mp hq) with hq | hq
          · subst hq
            exact absurd hqc hcol
          · exact ⟨q, hq, hqc, hqt⟩

/-- C8: `is_attacked(square, color)` returns true iff some piece of that
colour satisfies its pseudo-legal predicate against the square, where a pawn
is tested with `can_capture` instead of `can_move`; and `can_capture` is false
at a pawn's forward-advance destinations and true at its two diagonal
destinations, independent of occupancy. -/
theorem C8_is_attacked_spec :
    (∀ (b : Board) (pos : Pos) (c : Color) (res : Bool),
      b.is_attacked pos c = .ok res →
        (res = true ↔ ∃ p ∈ b.pieces, p.color = c ∧
          (if p.kind = Kind.pawn then Pawn.can_capture p pos = true
           else can_move b p pos = .ok true))) ∧
    (∀ p : Piece,
      (Pawn.can_capture p (p.pos.add 0 1) = false ∧
        Pawn.can_capture p (p.pos.add 0 (-1)) = false ∧
        Pawn.can_capture p (p.pos.add 0 2) = false ∧
        Pawn.can_capture p (p.pos.add 0 (-2)) = false) ∧
      (p.color = Color.white →
        Pawn.can_capture p (p.pos.add 1 1) = true ∧
        Pawn.can_capture p (p.pos.add (-1) 1) = true) ∧
      (p.color = Color.black →
        Pawn.can_capture p (p.pos.add 1 (-1)) = true ∧
        Pawn.can_capture p (p.pos.add (-1) (-1)) = true)) := by
  constructor
  · intro b pos c res h
    exact isAttackedAux_spec h
  · intro p
    refine ⟨⟨?_, ?_, ?_, ?_⟩, ?_, ?_⟩ <;>
      first
        | (cases hc : p.color <;>
            simp [Pawn.can_capture, Pos.add, Pos.mk.injEq, hc] <;> omega)
        | (intro hc
           constructor <;> simp [Pawn.can_capture, Pos.add, hc])

/-- Witness for C8: the knight square d5 is attacked by White on the concrete
board (the e4 pawn attacks it diagonally). -/
theorem C8_witness :
    ownCaptureBoard.is_attacked ⟨3, 5⟩ Color.white = .ok true ∧
      (true = true ↔ ∃ p ∈ ownCaptureBoard.pieces, p.color = Color.white ∧
        (if p.kind = Kind.pawn then Pawn.can_capture p ⟨3, 5⟩ = true
         else can_move ownCaptureBoard p ⟨3, 5⟩ = .ok true)) :=
  ⟨rfl, C8_is_attacked_spec.1 ownCaptureBoard ⟨3, 5⟩ Color.white true rfl⟩

/-! Castling-rights bookkeeping: no engine-core operation changes the
`castling` string; only the `match` arms of `StandardGame.move` shrink it. -/

theorem removeChar_mem {s : List Char} {c x : Char} (h : x ∈ removeChar s c) :
    x ∈ s := by
  unfold removeChar at h
  exact (List.mem_filter.mp h).1

theorem setCell_castling (b : Board) (rc : Nat × Nat) (v : Option Piece) :
    (b.setCell rc v).castling = b.castling := by
  unfold Board.setCell
  split <;> rfl

theorem pieceSync_castling (b : Board) (old new : Piece) :
    (b.pieceSync old new).castling = b.castling := by
  unfold Board.pieceSync
  split
  · split
    · split
      · rename_i b2 hset
        exact (setPos_fields hset).2.2.2.2.1
      · rfl
    · rfl
  · rfl

theorem board_move_castling {b : Board} {p : Piece} {pos : Pos}
    {m : Board × Piece} (h : b.move p pos = .ok m) :
    m.1.castling = b.castling := by
  unfold Board.move at h
  split at h
  · rw [exceptBind_ok] at h
    obtain ⟨rook, hrook, h⟩ := h
    dsimp only at h
    split at h
    · split at h
      · rw [exceptBind_ok] at h
        obtain ⟨b1, h1, h⟩ := h
        rw [exceptBind_ok] at h
        obtain ⟨b2, h2, h⟩ := h
        rw [exceptBind_ok] at h
        obtain ⟨b4, h4, h⟩ := h
        rw [exceptBind_ok] at h
        obtain ⟨b5, h5, h⟩ := h
        cases h
        rw [(setPos_fields h5).2.2.2.2.1, (setPos_fields h4).2.2.2.2.1,
          (kingsSync_only_kings _ _ _).2.2.2.1, (setPos_fields h2).2.2.2.2.1,
          (setPos_fields h1).2.2.2.2.1]
      · cases h
    · cases h
  · rw [exceptBind_ok] at h
    obtain ⟨b1, h1, h⟩ := h
    rw [exceptBind_ok] at h
    obtain ⟨b3, h3, h⟩ := h
    cases h
    rw [(setPos_fields h3).2.2.2.2.1, (kingsSync_only_kings _ _ _).2.2.2.1,
      (setPos_fields h1).2.2.2.2.1]

theorem is_legal_castling {b : Board} {p : Piece} {pos : Pos}
    {r : Bool × Board × Piece} (h : is_legal b p pos = .ok r) :
    r.2.1.castling = b.castling := by
  unfold is_legal at h
  rw [exceptBind_ok] at h
  obtain ⟨cm, hcm, h⟩ := h
  split at h
  · cases h; rfl
  · rw [exceptBind_ok] at h
    obtain ⟨cap, hcap, h⟩ := h
    rw [exceptBind_ok] at h
    obtain ⟨m1, hm1, h⟩ := h
    rw [exceptBind_ok] at h
    obtain ⟨chk, hchk, h⟩ := h
    rw [exceptBind_ok] at h
    obtain ⟨m2, hm2, h⟩ := h
    rw [exceptBind_ok] at h
    obtain ⟨b3, hb3, h⟩ := h
    cases h
    rw [(setPos_fields hb3).2.2.2.2.1, board_move_castling hm2, board_move_castling hm1]

theorem foldlM_inv {α β : Type} (P : β → Prop) {f : β → α → Except Err β}
    (hf : ∀ b a b2, f b a = .ok b2 → P b → P b2) :
    ∀ (l : List α) (b : β) {b2 : β}, l.foldlM f b = .ok b2 → P b → P b2 := by
  intro l
  induction l with
  | nil =>
    intro b b2 h hP
    rw [List.foldlM_nil] at h
    cases h
    exact hP
  | cons a rest ih =>
    intro b b2 h hP
    rw [List.foldlM_cons] at h
    rw [exceptBind_ok] at h
    obtain ⟨bm, hbm, h⟩ := h
    exact ih bm h (hf b a bm hbm hP)

theorem ulmPiece_castling {b : Board} {coord : Nat × Nat} {p : Piece} {b2 : Board}
    (h : ulmPiece b coord p = .ok b2) : b2.castling = b.castling := by
  unfold ulmPiece at h
  dsimp only at h
  rw [exceptBind_ok] at h
  obtain ⟨res, hres, h⟩ := h
  cases h
  have hfold : res.1.castling = b.castling := by
    have hstart : ((b.setCell coord (some { p with legal := [] })).kingsSync p
        { p with legal := [] }).castling = b.castling := by
      rw [(kingsSync_only_kings _ _ _).2.2.2.1, setCell_castling]
    refine foldlM_inv (fun st => st.1.castling = b.castling) ?_ posOrder _ hres hstart
    intro st tmp st2 hstep hPst
    unfold ulmProbe at hstep
    rw [exceptBind_ok] at hstep
    obtain ⟨r, hr, hstep⟩ := hstep
    cases hstep
    rw [is_legal_castling hr]
    exact hPst
  rw [(kingsSync_only_kings _ _ _).2.2.2.1, pieceSync_castling]
  exact hfold

theorem update_legal_moves_castling {g g2 : Game}
    (h : update_legal_moves g = .ok g2) : g2.board.castling = g.board.castling := by
  unfold update_legal_moves at h
  dsimp only at h
  rw [exceptBind_ok] at h
  obtain ⟨bF, hbF, h⟩ := h
  cases h
  refine foldlM_inv (fun b => b.castling = g.board.castling) ?_ _ _ hbF rfl
  intro b entry b2 hstep hP
  rw [exceptBind_ok] at hstep
  obtain ⟨tc, htc, hstep⟩ := hstep
  split at hstep
  · cases hstep
    exact hP
  · rw [ulmPiece_castling hstep]
    exact hP

theorem game_over_castling {g : Game} {r : Option (GOStatus × Option Color)}
    {g2 : Game} (h : game_over g = .ok (r, g2)) :
    g2.board.castling = g.board.castling := by
  unfold game_over at h
  rw [exceptBind_ok] at h
  obtain ⟨lm, hlm, h⟩ := h
  split at h
  · rw [exceptBind_ok] at h
    obtain ⟨chk, hchk, h⟩ := h
    split at h
    · rw [exceptBind_ok] at h
      obtain ⟨w, hw, h⟩ := h
      cases h
      rfl
    · cases h
      rfl
  · split at h
    · cases h
      rfl
    · rw [exceptBind_ok] at h
      obtain ⟨rep, hrep, h⟩ := h
      split at h
      · cases h
        rfl
      · split at h <;> (cases h; rfl)

theorem move_commit_castling_pure (g : Game) (piece : Piece) (pos : Pos)
    (cap : Option Piece) (ep : Bool) :
    (move_commit g piece pos cap ep).2.board.castling = g.board.castling ∨
      (g.board.castling = [] ∧
        (move_commit g piece pos cap ep).2.board.castling = ['-']) := by
  unfold move_commit
  try dsimp only
  split
  · left
    try dsimp only
    split <;> rfl
  · rename_i b2 pp hbm
    have hb2 : b2.castling = g.board.castling := by
      refine Eq.trans (board_move_castling hbm) ?_
      split <;> rfl
    try dsimp only
    split
    · rename_i e hulm
      try dsimp only
      repeat' split
      all_goals
        first
          | exact Or.inl hb2
          | exact Or.inr ⟨hb2.symm.trans (by assumption), rfl⟩
    · rename_i gU hulm
      have hU := update_legal_moves_castling hulm
      try dsimp only
      split
      · rename_i e hgo
        try dsimp only
        rw [hU]
        repeat' split
        all_goals
          first
            | exact Or.inl hb2
            | exact Or.inr ⟨hb2.symm.trans (by assumption), rfl⟩
      · rename_i g4 hgo
        have hG := game_over_castling hgo
        rw [hG]
        try dsimp only
        rw [hU]
        repeat' split
        all_goals
          first
            | exact Or.inl hb2
            | exact Or.inr ⟨hb2.symm.trans (by assumption), rfl⟩
      · rename_i st w g4 hgo
        have hG := game_over_castling hgo
        rw [hG]
        try dsimp only
        rw [hU]
        repeat' split
        all_goals
          first
            | exact Or.inl hb2
            | exact Or.inr ⟨hb2.symm.trans (by assumption), rfl⟩

theorem move_commit_castling {g : Game} {piece : Piece} {pos : Pos}
    {cap : Option Piece} {ep : Bool} {out : Outcome} {g2 : Game}
    (h : move_commit g piece pos cap ep = (out, g2)) :
    g2.board.castling = g.board.castling ∨
      (g.board.castling = [] ∧ g2.board.castling = ['-']) := by
  have hx := move_commit_castling_pure g piece pos cap ep
  rw [h] at hx
  exact hx

theorem not_mem_removeChar_self (s : List Char) (c : Char) :
    c ∉ removeChar s c := by
  intro h
  unfold removeChar at h
  have := (List.mem_filter.mp h).2
  simp at this

theorem delPos_castling {b : Board} {p : Pos} {b2 : Board}
    (h : b.delPos p = .ok b2) : b2.castling = b.castling :=
  (setPos_fields h).2.2.2.2.1

theorem exceptBind_pure {α β : Type} (a : α) (f : α → Except Err β) :
    (Except.ok a >>= f) = f a := rfl

theorem commit_no_removed {g : Game} {piece : Piece} {pos : Pos}
    {cap : Option Piece} {ep : Bool} {out : Outcome} {g2 : Game} {c : Char}
    (h : move_commit g piece pos cap ep = (out, g2))
    (hc : c ∉ g.board.castling) (hdash : c ≠ '-') : c ∉ g2.board.castling := by
  rcases move_commit_castling h with hC | ⟨h0, hC⟩
  · rw [hC]
    exact hc
  · rw [hC]
    simp [hdash]

theorem parse_move_castle_no_right {g : Game}
    (hturn : g.board.turn = ['w'])
    (hking : (g.board.get_king Color.white).isOk = true)
    (hK : g.board.castling.contains 'K' = false) :
    parse_move g ['O', '-', 'O'] = .error .illegalMove := by
  obtain ⟨k, hk⟩ : ∃ k, g.board.get_king Color.white = .ok k := by
    cases hg : g.board.get_king Color.white with
    | error e =>
      rw [hg] at hking
      exact absurd hking (by simp [Except.isOk, Except.toBool])
    | ok k => exact ⟨k, rfl⟩
  unfold parse_move
  try dsimp only
  rw [hturn]
  simp only [reduceIte]
  rw [show Char.toUpper ('k') = 'K' from rfl]
  rw [hk, exceptBind_pure]
  try dsimp only
  rw [hK]
  rfl

/-- C7: castling rights are monotonically non-increasing across each committed
move and across any sequence of moves; a king move clears both rights of its
color and a rook move from a corner clears the corresponding single right in
the resulting state; and with the white king-side right gone, the input `O-O`
is rejected as an illegal move, whatever the pieces' current placement (in
particular after the king has moved and returned). -/
theorem C7_castling_monotonic :
    (∀ (g : Game) (mv : List Char) (out : Outcome) (g2 : Game) (c : Char),
      StandardGame.move g mv = (out, g2) → c ∈ ['K', 'Q', 'k', 'q'] →
      c ∈ g2.board.castling → c ∈ g.board.castling) ∧
    (∀ (g : Game) (ms : List (List Char)) (c : Char),
      c ∈ ['K', 'Q', 'k', 'q'] → c ∈ (playMoves g ms).board.castling →
      c ∈ g.board.castling) ∧
    (∀ (g : Game) (mv : List Char) (piece : Piece) (pos : Pos)
      (cap : Option Piece) (promo : Option Kind) (out : Outcome) (g2 : Game),
      parse_move g mv = .ok (piece, pos, cap, promo) →
      StandardGame.move g mv = (out, g2) → piece.kind = Kind.king →
      ((piece.color = Color.white →
          'K' ∉ g2.board.castling ∧ 'Q' ∉ g2.board.castling) ∧
        (piece.color = Color.black →
          'k' ∉ g2.board.castling ∧ 'q' ∉ g2.board.castling))) ∧
    (∀ (g : Game) (mv : List Char) (piece : Piece) (pos : Pos)
      (cap : Option Piece) (promo : Option Kind) (out : Outcome) (g2 : Game),
      parse_move g mv = .ok (piece, pos, cap, promo) →
      StandardGame.move g mv = (out, g2) → piece.kind = Kind.rook →
      ((piece.pos = (⟨0, 1⟩ : Pos) → 'Q' ∉ g2.board.castling) ∧
        (piece.pos = (⟨7, 1⟩ : Pos) → 'K' ∉ g2.board.castling) ∧
        (piece.pos = (⟨0, 8⟩ : Pos) → 'q' ∉ g2.board.castling) ∧
        (piece.pos = (⟨7, 8⟩ : Pos) → 'k' ∉ g2.board.castling))) ∧
    (∀ (g : Game),
      g.board.turn = ['w'] → (g.board.get_king Color.white).isOk = true →
      g.board.castling.contains 'K' = false →
      StandardGame.move g ['O', '-', 'O'] = (.err .illegalMove, g)) := by
  have h1 : ∀ (g : Game) (mv : List Char) (out : Outcome) (g2 : Game) (c : Char),
      StandardGame.move g mv = (out, g2) → c ∈ ['K', 'Q', 'k', 'q'] →
      c ∈ g2.board.castling → c ∈ g.board.castling := by
    intro g mv out g2 c hmove hcK hc2
    unfold StandardGame.move at hmove
    split at hmove
    · cases hmove
      exact hc2
    · rename_i piece pos captured promo hp
      repeat' (first | (split at hmove) | (dsimp only at hmove))
      all_goals
        first
          | (cases hmove; exact hc2)
          | (rcases move_commit_castling hmove with hC | ⟨h0, hC⟩
             · rw [hC] at hc2
               try dsimp only at hc2
               try rw [pieceSync_castling] at hc2
               try rw [delPos_castling (by assumption)] at hc2
               first
                 | exact hc2
                 | exact removeChar_mem hc2
                 | exact removeChar_mem (removeChar_mem hc2)
             · rw [hC] at hc2
               simp only [List.mem_singleton] at hc2
               subst hc2
               exact absurd hcK (by decide))
  have h5 : ∀ (g : Game),
      g.board.turn = ['w'] → (g.board.get_king Color.white).isOk = true →
      g.board.castling.contains 'K' = false →
      StandardGame.move g ['O', '-', 'O'] = (.err .illegalMove, g) := by
    intro g hturn hking hK
    have hp := parse_move_castle_no_right hturn hking hK
    unfold StandardGame.move
    rw [hp]
  have h3 : ∀ (g : Game) (mv : List Char) (piece : Piece) (pos : Pos)
      (cap : Option Piece) (promo : Option Kind) (out : Outcome) (g2 : Game),
      parse_move g mv = .ok (piece, pos, cap, promo) →
      StandardGame.move g mv = (out, g2) → piece.kind = Kind.king →
      ((piece.color = Color.white →
          'K' ∉ g2.board.castling ∧ 'Q' ∉ g2.board.castling) ∧
        (piece.color = Color.black →
          'k' ∉ g2.board.castling ∧ 'q' ∉ g2.board.castling)) := by
    intro g mv piece pos cap promo out g2 hp hmove hk
    unfold StandardGame.move at hmove
    split at hmove
    · rename_i e heq
      rw [hp] at heq
      exact Except.noConfusion heq
    · rename_i p2 q2 c2 m2 heq
      rw [hp] at heq
      injection heq with heq
      injection heq with e1 heq
      injection heq with e2 heq
      injection heq with e3 e4
      subst e1
      subst e2
      subst e3
      subst e4
      try dsimp only at hmove
      simp only [hk] at hmove
      try dsimp only at hmove
      split at hmove
      · rename_i hcol
        refine ⟨fun _ => ⟨?_, ?_⟩, fun hcb => ?_⟩
        · exact commit_no_removed hmove
            (fun hm => not_mem_removeChar_self _ _ (removeChar_mem hm)) (by decide)
        · exact commit_no_removed hmove
            (fun hm => not_mem_removeChar_self _ _ hm) (by decide)
        · rw [hcol] at hcb
          exact Color.noConfusion hcb
      · rename_i hcol
        refine ⟨fun hcw => absurd hcw hcol, fun _ => ⟨?_, ?_⟩⟩
        · exact commit_no_removed hmove
            (fun hm => not_mem_removeChar_self _ _ (removeChar_mem hm)) (by decide)
        · exact commit_no_removed hmove
            (fun hm => not_mem_removeChar_self _ _ hm) (by decide)
  have h4 : ∀ (g : Game) (mv : List Char) (piece : Piece) (pos : Pos)
      (cap : Option Piece) (promo : Option Kind) (out : Outcome) (g2 : Game),
      parse_move g mv = .ok (piece, pos, cap, promo) →
      StandardGame.move g mv = (out, g2) → piece.kind = Kind.rook →
      ((piece.pos = (⟨0, 1⟩ : Pos) → 'Q' ∉ g2.board.castling) ∧
        (piece.pos = (⟨7, 1⟩ : Pos) → 'K' ∉ g2.board.castling) ∧
        (piece.pos = (⟨0, 8⟩ : Pos) → 'q' ∉ g2.board.castling) ∧
        (piece.pos = (⟨7, 8⟩ : Pos) → 'k' ∉ g2.board.castling)) := by
    intro g mv piece pos cap promo out g2 hp hmove hk
    unfold StandardGame.move at hmove
    split at hmove
    · rename_i e heq
      rw [hp] at heq
      exact Except.noConfusion heq
    · rename_i p2 q2 c2 m2 heq
      rw [hp] at heq
      injection heq with heq
      injection heq with e1 heq
      injection heq with e2 heq
      injection heq with e3 e4
      subst e1
      subst e2
      subst e3
      subst e4
      try dsimp only at hmove
      simp only [hk] at hmove
      try dsimp only at hmove
      split at hmove
      · rename_i hpos
        refine ⟨fun _ => ?_, fun h2 => ?_, fun h3x => ?_, fun h4x => ?_⟩
        · exact commit_no_removed hmove
            (fun hm => not_mem_removeChar_self _ _ hm) (by decide)
        · rw [hpos] at h2
          exact absurd h2 (by decide)
        · rw [hpos] at h3x
          exact absurd h3x (by decide)
        · rw [hpos] at h4x
          exact absurd h4x (by decide)
      · rename_i hnot1
        split at hmove
        · rename_i hpos
          refine ⟨fun h1x => ?_, fun _ => ?_, fun h3x => ?_, fun h4x => ?_⟩
          · rw [hpos] at h1x
            exact absurd h1x (by decide)
          · exact commit_no_removed hmove
              (fun hm => not_mem_removeChar_self _ _ hm) (by decide)
          · rw [hpos] at h3x
            exact absurd h3x (by decide)
          · rw [hpos] at h4x
            exact absurd h4x (by decide)
        · rename_i hnot2
          split at hmove
          · rename_i hpos
            refine ⟨fun h1x => ?_, fun h2x => ?_, fun _ => ?_, fun h4x => ?_⟩
            · rw [hpos] at h1x
              exact absurd h1x (by decide)
            · rw [hpos] at h2x
              exact absurd h2x (by decide)
            · exact commit_no_removed hmove
                (fun hm => not_mem_removeChar_self _ _ hm) (by decide)
            · rw [hpos] at h4x
              exact absurd h4x (by decide)
          · rename_i hnot3
            split at hmove
            · rename_i hpos
              refine ⟨fun h1x => ?_, fun h2x => ?_, fun h3x => ?_, fun _ => ?_⟩
              · rw [hpos] at h1x
                exact absurd h1x (by decide)
              · rw [hpos] at h2x
                exact absurd h2x (by decide)
              · rw [hpos] at h3x
                exact absurd h3x (by decide)
              · exact commit_no_removed hmove
                  (fun hm => not_mem_removeChar_self _ _ hm) (by decide)
            · rename_i hnot4
              exact ⟨fun h1x => absurd h1x hnot1, fun h2x => absurd h2x hnot2,
                fun h3x => absurd h3x hnot3, fun h4x => absurd h4x hnot4⟩
  refine ⟨h1, ?_, h3, h4, h5⟩
  intro g ms
  induction ms generalizing g with
  | nil =>
    intro c hcK hc
    exact hc
  | cons m rest ih =>
    intro c hcK hc
    exact h1 g m (StandardGame.move g m).1 (StandardGame.move g m).2 c rfl hcK
      (ih ((StandardGame.move g m).2) c hcK hc)

/-- Witness for C7: in a game where White has only the queen-side right
(`castling = "Q"`), the king-side castle input `O-O` is rejected and the game
is unchanged. -/
theorem C7_witness :
    StandardGame.move noCastleGame ['O', '-', 'O']
      = (.err .illegalMove, noCastleGame) :=
  C7_castling_monotonic.2.2.2.2 noCastleGame rfl rfl rfl

/-! Run-length grouping: reconstruction and structure lemmas. -/

theorem runs_cons {α : Type} [DecidableEq α] (a : α) (l : List α) :
    runs (a :: l) = match runs l with
      | [] => [(a, 1)]
      | (b, n) :: t => if a = b then (a, n + 1) :: t
        else (a, 1) :: (b, n) :: t := rfl

theorem runs_flatten {α : Type} [DecidableEq α] :
    ∀ l : List α, ((runs l).flatMap fun g => List.replicate g.2 g.1) = l := by
  intro l
  induction l with
  | nil => rfl
  | cons a rest ih =>
    rw [runs_cons]
    cases hr : runs rest with
    | nil =>
      rw [hr] at ih
      simp at ih
      simp [ih]
    | cons g t =>
      obtain ⟨b, n⟩ := g
      rw [hr] at ih
      dsimp only
      by_cases hab : a = b
      · subst hab
        rw [if_pos rfl]
        simp only [List.flatMap_cons] at ih ⊢
        rw [List.replicate_succ]
        simp [ih]
      · rw [if_neg hab]
        simp only [List.flatMap_cons] at ih ⊢
        simp [ih]

theorem runs_head {α : Type} [DecidableEq α] :
    ∀ {l : List α} {b : α} {n : Nat} {t : List (α × Nat)},
    runs l = (b, n) :: t → l.head? = some b := by
  intro l
  induction l with
  | nil => intro b n t h; cases h
  | cons a rest ih =>
    intro b n t h
    rw [runs_cons] at h
    cases hr : runs rest with
    | nil =>
      rw [hr] at h
      dsimp only at h
      injection h with h1 h2
      injection h1 with hb hn
      rw [hb]
      rfl
    | cons g u =>
      obtain ⟨c, m⟩ := g
      rw [hr] at h
      dsimp only at h
      by_cases hac : a = c
      · rw [if_pos hac] at h
        injection h with h1 h2
        injection h1 with hb hn
        rw [hb]
        rfl
      · rw [if_neg hac] at h
        injection h with h1 h2
        injection h1 with hb hn
        rw [hb]
        rfl

theorem runs_pos {α : Type} [DecidableEq α] :
    ∀ {l : List α} {g : α × Nat}, g ∈ runs l → 1 ≤ g.2 := by
  intro l
  induction l with
  | nil => intro g h; cases h
  | cons a rest ih =>
    intro g h
    rw [runs_cons] at h
    cases hr : runs rest with
    | nil =>
      rw [hr] at h
      simp at h
      rw [h]
    | cons u t =>
      obtain ⟨b, n⟩ := u
      rw [hr] at h
      dsimp only at h
      by_cases hab : a = b
      · rw [if_pos hab] at h
        rcases List.mem_cons.mp h with h1 | h1
        · rw [h1]
          exact Nat.le_add_left 1 n
        · exact ih (hr ▸ List.mem_cons_of_mem _ h1)
      · rw [if_neg hab] at h
        rcases List.mem_cons.mp h with h1 | h1
        · rw [h1]
        · exact ih (hr ▸ h1)

theorem runs_le_length {α : Type} [DecidableEq α] :
    ∀ {l : List α} {g : α × Nat}, g ∈ runs l → g.2 ≤ l.length := by
  intro l
  induction l with
  | nil => intro g h; cases h
  | cons a rest ih =>
    intro g h
    rw [runs_cons] at h
    cases hr : runs rest with
    | nil =>
      rw [hr] at h
      simp at h
      rw [h]
      simp
    | cons u t =>
      obtain ⟨b, n⟩ := u
      rw [hr] at h
      dsimp only at h
      by_cases hab : a = b
      · rw [if_pos hab] at h
        rcases List.mem_cons.mp h with h1 | h1
        · rw [h1]
          have := ih (hr ▸ (List.mem_cons_self (b, n) t))
          simpa using this
        · have := ih (hr ▸ List.mem_cons_of_mem _ h1)
          simp
          omega
      · rw [if_neg hab] at h
        rcases List.mem_cons.mp h with h1 | h1
        · rw [h1]
          simp
        · have := ih (hr ▸ h1)
          simp
          omega

theorem runs_some_single :
    ∀ {l : List (Option Piece)},
    List.Chain' (fun x y => x.isSome = true → x ≠ y) l →
    ∀ {g : Option Piece × Nat}, g ∈ runs l → g.1.isSome = true → g.2 = 1 := by
  intro l
  induction l with
  | nil => intro hch g h; cases h
  | cons a rest ih =>
    intro hch g h hs
    rw [runs_cons] at h
    cases hr : runs rest with
    | nil =>
      rw [hr] at h
      simp at h
      rw [h]
    | cons u t =>
      obtain ⟨b, n⟩ := u
      rw [hr] at h
      dsimp only at h
      by_cases hab : a = b
      · subst hab
        rw [if_pos rfl] at h
        -- the head of `rest` equals `a`, contradicting the chain when some
        have hhd : rest.head? = some a := runs_head hr
        cases rest with
        | nil => cases hhd
        | cons r0 rr =>
          have hr0 : r0 = a := by
            simpa using hhd
          rcases List.mem_cons.mp h with h1 | h1
          · exfalso
            have hrel := (List.chain'_cons.mp hch).1
            have hsa : a.isSome = true := by
              rw [h1] at hs
              exact hs
            exact hrel hsa (by rw [hr0])
          · exact ih (List.Chain'.tail hch) (hr ▸ List.mem_cons_of_mem _ h1) hs
      · rw [if_neg hab] at h
        rcases List.mem_cons.mp h with h1 | h1
        · rw [h1]
        · exact ih (List.Chain'.tail hch) (hr ▸ h1) hs

/-! Decoding a rank representation recovers the rank. -/

theorem natStr_digit {k : Nat} (h1 : 1 ≤ k) (h2 : k ≤ 8) :
    natStr k = [Char.ofNat (48 + k)] := by
  interval_cases k <;> rfl

theorem decodeRank_digit {k : Nat} (h1 : 1 ≤ k) (h2 : k ≤ 8) (rest : List Char) :
    decodeRank (natStr k ++ rest) = List.replicate k none ++ decodeRank rest := by
  interval_cases k <;> rfl

theorem decodeRank_piece (p : Piece) (rest : List Char) :
    decodeRank (pieceChar p :: rest) = some (p.kind, p.color) :: decodeRank rest := by
  cases hk : p.kind <;> cases hc : p.color <;>
    simp [pieceChar, decodeRank, pieceKCOfChar, hk, hc]

theorem rankEmit_eq (row : List (Option Piece)) :
    rankRepr row = (runs row).flatMap
      (fun g => match g.1 with
        | none => natStr g.2
        | some p => [pieceChar p]) := rfl

theorem decodeRank_rankRepr :
    ∀ (row : List (Option Piece)), row.length ≤ 8 →
    List.Chain' (fun x y => x.isSome = true → x ≠ y) row →
    decodeRank (rankRepr row) = rowKC row := by
  intro row
  induction row with
  | nil => intro _ _; rfl
  | cons a rest ih =>
    intro hlen hch
    have hlen' : rest.length ≤ 8 := by
      simp at hlen
      omega
    have hch' : List.Chain' (fun x y => x.isSome = true → x ≠ y) rest :=
      List.Chain'.tail hch
    cases hr : runs rest with
    | nil =>
      have hrest : rest = [] := by
        have hfl := runs_flatten rest
        rw [hr] at hfl
        simpa using hfl.symm
      subst hrest
      cases a with
      | none => rfl
      | some p =>
        have h1 : rankRepr [some p] = pieceChar p :: ([] : List Char) := rfl
        rw [h1, decodeRank_piece]
        rfl
    | cons u t =>
      obtain ⟨b, n⟩ := u
      have hb : rest.head? = some b := runs_head hr
      by_cases hab : a = b
      · subst hab
        cases rest with
        | nil => cases hb
        | cons r0 rr =>
          have hr0 : r0 = a := by
            simpa using hb
          subst hr0
          cases ha : r0 with
          | some p =>
            exfalso
            have hrel := (List.chain'_cons.mp hch).1
            exact hrel (by rw [ha]; rfl) rfl
          | none =>
            subst ha
            have hruns : runs (none :: none :: rr) = ((none : Option Piece), n + 1) :: t := by
              rw [runs_cons, hr]
              dsimp only
              rw [if_pos rfl]
            have hn1 : 1 ≤ n := runs_pos (by rw [hr]; exact List.mem_cons_self _ _)
            have hn8 : n + 1 ≤ 8 := by
              have h2 := runs_le_length
                (show ((none : Option Piece), n + 1) ∈ runs (none :: none :: rr) from by
                  rw [hruns]; exact List.mem_cons_self _ _)
              simp at h2 hlen
              omega
            have hrr1 : rankRepr (none :: none :: rr)
                = natStr (n + 1) ++ t.flatMap
                    (fun g => match g.1 with
                      | none => natStr g.2
                      | some p => [pieceChar p]) := by
              rw [rankEmit_eq, hruns, List.flatMap_cons]
            have hrr2 : rankRepr (none :: rr)
                = natStr n ++ t.flatMap
                    (fun g => match g.1 with
                      | none => natStr g.2
                      | some p => [pieceChar p]) := by
              rw [rankEmit_eq, hr, List.flatMap_cons]
            rw [hrr1, decodeRank_digit (by omega) hn8]
            have hih := ih hlen' hch'
            rw [hrr2, decodeRank_digit hn1 (by omega)] at hih
            rw [List.replicate_succ, List.cons_append, hih]
            rfl
      · have hruns : runs (a :: rest) = (a, 1) :: (b, n) :: t := by
          rw [runs_cons, hr]
          dsimp only
          rw [if_neg hab]
        cases a with
        | none =>
          have hrr1 : rankRepr ((none : Option Piece) :: rest)
              = natStr 1 ++ rankRepr rest := by
            rw [rankEmit_eq, hruns, List.flatMap_cons, rankEmit_eq, hr]
          rw [hrr1, decodeRank_digit (by omega) (by omega), ih hlen' hch']
          rfl
        | some p =>
          have hrr1 : rankRepr (some p :: rest)
              = pieceChar p :: rankRepr rest := by
            rw [rankEmit_eq, hruns, List.flatMap_cons, rankEmit_eq, hr]
            rfl
          rw [hrr1, decodeRank_piece, ih hlen' hch']
          rfl

/-! Decomposing a signature string from the right. -/

theorem takeWhile_block {P : Char → Bool} :
    ∀ (c' : List Char) (x : Char) (r : List Char),
    (∀ a ∈ c', P a = true) → P x = false →
    (c' ++ x :: r).takeWhile P = c' ∧ (c' ++ x :: r).dropWhile P = x :: r := by
  intro c'
  induction c' with
  | nil =>
    intro x r _ hx
    constructor
    · simp [List.takeWhile_cons, hx]
    · simp [List.dropWhile_cons, hx]
  | cons a c ih =>
    intro x r hc hx
    have ha : P a = true := hc a (by simp)
    have hrec := ih x r (fun b hb => hc b (by simp [hb])) hx
    constructor
    · simp only [List.cons_append, List.takeWhile_cons, ha]
      simp [hrec.1]
    · simp only [List.cons_append, List.dropWhile_cons, ha]
      simp [hrec.2]

theorem sep_split :
    ∀ (p1 p2 r1 r2 : List Char), '/' ∉ p1 → '/' ∉ p2 →
    p1 ++ '/' :: r1 = p2 ++ '/' :: r2 → p1 = p2 ∧ r1 = r2 := by
  intro p1
  induction p1 with
  | nil =>
    intro p2 r1 r2 _ hp2 h
    cases p2 with
    | nil =>
      simp at h
      exact ⟨rfl, h⟩
    | cons y ys =>
      simp at h
      exact absurd (h.1 ▸ List.mem_cons_self y ys) (h.1 ▸ hp2)
  | cons x xs ih =>
    intro p2 r1 r2 hp1 hp2 h
    cases p2 with
    | nil =>
      simp at h
      exact absurd (h.1 ▸ List.mem_cons_self x xs) (h.1 ▸ hp1)
    | cons y ys =>
      simp only [List.cons_append, List.cons.injEq] at h
      obtain ⟨hxy, hrest⟩ := h
      have := ih ys r1 r2 (fun hm => hp1 (List.mem_cons_of_mem _ hm))
        (fun hm => hp2 (List.mem_cons_of_mem _ hm)) hrest
      exact ⟨by rw [hxy, this.1], this.2⟩

theorem intercalate_single (s a : List Char) : List.intercalate s [a] = a := by
  simp [List.intercalate]

theorem intercalate_cons2 (s a b : List Char) (t : List (List Char)) :
    List.intercalate s (a :: b :: t) = a ++ s ++ List.intercalate s (b :: t) := by
  simp [List.intercalate, List.intersperse]

theorem intercalate_rank_inj :
    ∀ (l1 l2 : List (List Char)), l1.length = l2.length →
    (∀ p ∈ l1, '/' ∉ p) → (∀ p ∈ l2, '/' ∉ p) →
    List.intercalate ['/'] l1 = List.intercalate ['/'] l2 → l1 = l2 := by
  intro l1
  induction l1 with
  | nil =>
    intro l2 hlen _ _ _
    cases l2 with
    | nil => rfl
    | cons q qs => cases hlen
  | cons p ps ih =>
    intro l2 hlen h1 h2 heq
    cases l2 with
    | nil => cases hlen
    | cons q qs =>
      cases ps with
      | nil =>
        cases qs with
        | nil =>
          rw [intercalate_single, intercalate_single] at heq
          rw [heq]
        | cons q2 qs2 => simp at hlen
      | cons p2 ps2 =>
        cases qs with
        | nil => simp at hlen
        | cons q2 qs2 =>
          rw [intercalate_cons2, intercalate_cons2] at heq
          simp only [List.append_assoc, List.cons_append, List.nil_append] at heq
          have hsp := sep_split p q _ _ (h1 p (by simp)) (h2 q (by simp)) heq
          have htail := ih (q2 :: qs2) (by simpa using hlen)
            (fun x hx => h1 x (List.mem_cons_of_mem _ hx))
            (fun x hx => h2 x (List.mem_cons_of_mem _ hx)) hsp.2
          rw [hsp.1, htail]

theorem natStrAux_digit :
    ∀ (fuel n : Nat), ∀ ch ∈ natStrAux fuel n,
    48 ≤ ch.toNat ∧ ch.toNat ≤ 57 := by
  intro fuel
  induction fuel with
  | zero => intro n ch h; cases h
  | succ f ih =>
    intro n ch h
    rw [natStrAux] at h
    split at h
    · rename_i hn
      simp at h
      subst h
      constructor <;>
        · have h10 : n < 10 := hn
          interval_cases n <;> decide
    · rcases List.mem_append.mp h with h1 | h1
      · exact ih (n / 10) ch h1
      · simp at h1
        subst h1
        have h10 : n % 10 < 10 := Nat.mod_lt _ (by decide)
        constructor <;>
          · generalize hm : n % 10 = m at h10
            interval_cases m <;> decide

theorem rankRepr_no_slash (row : List (Option Piece)) :
    ∀ ch ∈ rankRepr row, '/' ∉ [ch] := by
  intro ch hch
  simp only [List.mem_singleton]
  intro heq
  subst heq
  rw [rankEmit_eq] at hch
  rw [List.mem_flatMap] at hch
  obtain ⟨g, hg, hmem⟩ := hch
  rcases hg1 : g.1 with _ | p
  · rw [hg1] at hmem
    dsimp only at hmem
    have := natStrAux_digit 20 g.2 _ hmem
    simp at this
  · rw [hg1] at hmem
    dsimp only at hmem
    simp at hmem
    revert hmem
    cases hk : p.kind <;> cases hc : p.color <;>
      simp [pieceChar, hk, hc] <;> decide

/-! Injectivity of the printed position components. -/

theorem colChar_inj {a b : Int} (ha0 : 0 ≤ a) (ha7 : a ≤ 7)
    (hb0 : 0 ≤ b) (hb7 : b ≤ 7) (h : colChar a = colChar b) : a = b := by
  interval_cases a <;> interval_cases b <;> revert h <;> decide

theorem rowDigit_inj {a b : Int} (ha : 1 ≤ a) (ha8 : a ≤ 8)
    (hb : 1 ≤ b) (hb8 : b ≤ 8)
    (h : Char.ofNat (48 + a.toNat) = Char.ofNat (48 + b.toNat)) : a = b := by
  interval_cases a <;> interval_cases b <;> revert h <;> decide

theorem digit_ne_dash {r : Int} (h1 : 1 ≤ r) (h8 : r ≤ 8) :
    Char.ofNat (48 + r.toNat) ≠ '-' := by
  interval_cases r <;> decide

theorem posStr_valid {p : Pos} (h1 : 1 ≤ p.row) (h8 : p.row ≤ 8) :
    posStr p = [colChar p.col, Char.ofNat (48 + p.row.toNat)] := by
  unfold posStr intStr
  rw [if_neg (by omega)]
  have hab : p.row.natAbs = p.row.toNat := by omega
  rw [hab, natStr_digit (by omega) (by omega)]

theorem rowChain (row : List (Option Piece))
    (hpos : ∀ (c : Nat) (q : Piece), row[c]? = some (some q) →
      q.pos.col = (c : Int)) :
    List.Chain' (fun x y => x.isSome = true → x ≠ y) row := by
  rw [List.chain'_iff_get]
  intro i hi hs heq
  cases hx : row.get ⟨i, by omega⟩ with
  | none =>
    rw [hx] at hs
    simp at hs
  | some p =>
    have hgi : row[i]? = some (some p) := by
      rw [List.getElem?_eq_getElem (by omega)]
      rw [← hx]
      simp [List.get_eq_getElem]
    have hgi2 : row[i + 1]? = some (some p) := by
      rw [List.getElem?_eq_getElem (by omega)]
      rw [show row[i + 1] = row.get ⟨i + 1, by omega⟩ from rfl]
      rw [← heq, hx]
    have c1 := hpos i p hgi
    have c2 := hpos (i + 1) p hgi2
    rw [c1] at c2
    omega

theorem sigValid_unpack {b : Board} (h : SigValid b = true) :
    b.matrix.length = 8 ∧ (∀ row ∈ b.matrix, row.length = 8) ∧
    (b.turn = ['w'] ∨ b.turn = ['b']) ∧
    (∀ ch ∈ b.castling, ch ∈ (['K', 'Q', 'k', 'q', '-'] : List Char)) ∧
    (∀ p, b.en_passant = some p →
      0 ≤ p.col ∧ p.col ≤ 7 ∧ 1 ≤ p.row ∧ p.row ≤ 8) ∧
    (∀ (r : Nat) (row : List (Option Piece)), b.matrix[r]? = some row →
      ∀ (c : Nat) (q : Piece), row[c]? = some (some q) →
      q.pos = (⟨(c : Int), 8 - (r : Int)⟩ : Pos)) := by
  unfold SigValid at h
  simp only [Bool.and_eq_true, Bool.or_eq_true, decide_eq_true_eq,
    List.all_eq_true] at h
  obtain ⟨⟨⟨⟨⟨hlen, hrows⟩, hturn⟩, hcast⟩, hep⟩, hpos⟩ := h
  refine ⟨hlen, hrows, hturn, ?_, ?_, ?_⟩
  · intro ch hch
    have := hcast ch hch
    simpa using this
  · intro p hp
    rw [hp] at hep
    simp at hep
    exact ⟨hep.1.1.1, hep.1.1.2, hep.1.2, hep.2⟩
  · intro r row hr c q hc
    have hmem : (r, row) ∈ b.matrix.enum := List.mk_mem_enum_iff_getElem?.mpr hr
    have hrow := hpos (r, row) hmem
    have hcm : (c, some q) ∈ row.enum := List.mk_mem_enum_iff_getElem?.mpr hc
    have := hrow (c, some q) hcm
    simpa using this

theorem sigStr_inj {b1 b2 : Board} (h1 : SigValid b1 = true)
    (h2 : SigValid b2 = true) (hsig : b1.sigStr = b2.sigStr) :
    b1.matrixKC = b2.matrixKC ∧ b1.turn = b2.turn ∧
      b1.castling = b2.castling ∧ b1.en_passant = b2.en_passant := by
  obtain ⟨hl1, hr1, ht1, hc1, he1, hp1⟩ := sigValid_unpack h1
  obtain ⟨hl2, hr2, ht2, hc2, he2, hp2⟩ := sigValid_unpack h2
  unfold Board.sigStr at hsig
  have hep1 : (b1.epStr = ['-'] ∧ b1.en_passant = none) ∨
      (∃ p, b1.en_passant = some p ∧
        b1.epStr = [colChar p.col, Char.ofNat (48 + p.row.toNat)] ∧
        0 ≤ p.col ∧ p.col ≤ 7 ∧ 1 ≤ p.row ∧ p.row ≤ 8) := by
    cases hb : b1.en_passant with
    | none => exact Or.inl ⟨by unfold Board.epStr; rw [hb], rfl⟩
    | some p =>
      obtain ⟨a1, a2, a3, a4⟩ := he1 p hb
      exact Or.inr ⟨p, rfl,
        by unfold Board.epStr; rw [hb]; exact posStr_valid a3 a4, a1, a2, a3, a4⟩
  have hep2 : (b2.epStr = ['-'] ∧ b2.en_passant = none) ∨
      (∃ p, b2.en_passant = some p ∧
        b2.epStr = [colChar p.col, Char.ofNat (48 + p.row.toNat)] ∧
        0 ≤ p.col ∧ p.col ≤ 7 ∧ 1 ≤ p.row ∧ p.row ≤ 8) := by
    cases hb : b2.en_passant with
    | none => exact Or.inl ⟨by unfold Board.epStr; rw [hb], rfl⟩
    | some p =>
      obtain ⟨a1, a2, a3, a4⟩ := he2 p hb
      exact Or.inr ⟨p, rfl,
        by unfold Board.epStr; rw [hb]; exact posStr_valid a3 a4, a1, a2, a3, a4⟩
  have hsig' : (b1.reprFen ++ b1.turn ++ b1.castling) ++ b1.epStr
      = (b2.reprFen ++ b2.turn ++ b2.castling) ++ b2.epStr := by
    simpa [List.append_assoc] using hsig
  have hsplit : (b1.reprFen ++ b1.turn ++ b1.castling
      = b2.reprFen ++ b2.turn ++ b2.castling) ∧
      b1.en_passant = b2.en_passant := by
    rcases hep1 with ⟨he1s, he1n⟩ | ⟨p, hpe, hps, hp0, hp7, hpr1, hpr8⟩
    · rcases hep2 with ⟨he2s, he2n⟩ | ⟨q, hqe, hqs, hq0, hq7, hqr1, hqr8⟩
      · rw [he1s, he2s] at hsig'
        have := List.append_inj' hsig' rfl
        exact ⟨this.1, by rw [he1n, he2n]⟩
      · exfalso
        rw [he1s, hqs] at hsig'
        have hL : ((b1.reprFen ++ b1.turn ++ b1.castling) ++ ['-']).getLast?
            = some '-' := List.getLast?_concat _
        have hR : ((b2.reprFen ++ b2.turn ++ b2.castling)
            ++ [colChar q.col, Char.ofNat (48 + q.row.toNat)]).getLast?
            = some (Char.ofNat (48 + q.row.toNat)) := by
          rw [show (b2.reprFen ++ b2.turn ++ b2.castling)
              ++ [colChar q.col, Char.ofNat (48 + q.row.toNat)]
              = ((b2.reprFen ++ b2.turn ++ b2.castling) ++ [colChar q.col])
                ++ [Char.ofNat (48 + q.row.toNat)] by simp]
          exact List.getLast?_concat _
        rw [hsig', hR] at hL
        injection hL with hL
        exact digit_ne_dash hqr1 hqr8 hL
    · rcases hep2 with ⟨he2s, he2n⟩ | ⟨q, hqe, hqs, hq0, hq7, hqr1, hqr8⟩
      · exfalso
        rw [hps, he2s] at hsig'
        have hL : ((b2.reprFen ++ b2.turn ++ b2.castling) ++ ['-']).getLast?
            = some '-' := List.getLast?_concat _
        have hR : ((b1.reprFen ++ b1.turn ++ b1.castling)
            ++ [colChar p.col, Char.ofNat (48 + p.row.toNat)]).getLast?
            = some (Char.ofNat (48 + p.row.toNat)) := by
          rw [show (b1.reprFen ++ b1.turn ++ b1.castling)
              ++ [colChar p.col, Char.ofNat (48 + p.row.toNat)]
              = ((b1.reprFen ++ b1.turn ++ b1.castling) ++ [colChar p.col])
                ++ [Char.ofNat (48 + p.row.toNat)] by simp]
          exact List.getLast?_concat _
        rw [← hsig', hR] at hL
        injection hL with hL
        exact digit_ne_dash hpr1 hpr8 hL
      · rw [hps, hqs] at hsig'
        have hsp := List.append_inj' hsig' rfl
        obtain ⟨hmid, hepeq⟩ := hsp
        have hcol : colChar p.col = colChar q.col := by
          injection hepeq with hcl hrest
        have hrow : Char.ofNat (48 + p.row.toNat)
            = Char.ofNat (48 + q.row.toNat) := by
          injection hepeq with hcl hrest
          injection hrest with hrw hnil
        have hpq : p = q := by
          have hcc := colChar_inj hp0 hp7 hq0 hq7 hcol
          have hrr := rowDigit_inj hpr1 hpr8 hqr1 hqr8 hrow
          cases p
          cases q
          dsimp at hcc hrr
          rw [hcc, hrr]
        exact ⟨hmid, by rw [hpe, hqe, hpq]⟩
  obtain ⟨hmid, hepfin⟩ := hsplit
  have hS : ∀ (tch : Char) (R cas : List Char),
      (∀ ch ∈ cas, ch ∈ (['K', 'Q', 'k', 'q', '-'] : List Char)) →
      (tch = 'w' ∨ tch = 'b') →
      ((R ++ [tch] ++ cas).reverse.takeWhile
          (fun ch => (['K', 'Q', 'k', 'q', '-'] : List Char).contains ch)
        = cas.reverse) ∧
      ((R ++ [tch] ++ cas).reverse.dropWhile
          (fun ch => (['K', 'Q', 'k', 'q', '-'] : List Char).contains ch)
        = tch :: R.reverse) := by
    intro tch R cas hcas htch
    have hrev : (R ++ [tch] ++ cas).reverse
        = cas.reverse ++ tch :: R.reverse := by
      simp
    rw [hrev]
    apply takeWhile_block
    · intro a ha
      have := hcas a (List.mem_reverse.mp ha)
      simpa using this
    · rcases htch with h | h <;> rw [h] <;> decide
  obtain ⟨tch1, ht1e, htc1⟩ : ∃ t, b1.turn = [t] ∧ (t = 'w' ∨ t = 'b') := by
    rcases ht1 with h | h
    · exact ⟨'w', h, Or.inl rfl⟩
    · exact ⟨'b', h, Or.inr rfl⟩
  obtain ⟨tch2, ht2e, htc2⟩ : ∃ t, b2.turn = [t] ∧ (t = 'w' ∨ t = 'b') := by
    rcases ht2 with h | h
    · exact ⟨'w', h, Or.inl rfl⟩
    · exact ⟨'b', h, Or.inr rfl⟩
  rw [ht1e, ht2e] at hmid
  have hA := hS tch1 b1.reprFen b1.castling hc1 htc1
  have hB := hS tch2 b2.reprFen b2.castling hc2 htc2
  have hrev2 : (b1.reprFen ++ [tch1] ++ b1.castling).reverse
      = (b2.reprFen ++ [tch2] ++ b2.castling).reverse := by
    rw [hmid]
  have hcaseq : b1.castling = b2.castling := by
    have hx2 : (b1.reprFen ++ [tch1] ++ b1.castling).reverse.takeWhile
        (fun ch => (['K', 'Q', 'k', 'q', '-'] : List Char).contains ch)
        = b2.castling.reverse := by
      rw [hrev2]
      exact hB.1
    exact List.reverse_inj.mp (hA.1.symm.trans hx2)
  have hdrops : tch1 :: b1.reprFen.reverse = tch2 :: b2.reprFen.reverse := by
    rw [← hA.2, ← hB.2, hrev2]
  have hturn : b1.turn = b2.turn := by
    injection hdrops with hteq hrest
    rw [ht1e, ht2e, hteq]
  have hR : b1.reprFen = b2.reprFen := by
    injection hdrops with hteq hrest
    exact List.reverse_inj.mp hrest
  have hmaps : b1.matrix.map rankRepr = b2.matrix.map rankRepr := by
    apply intercalate_rank_inj
    · rw [List.length_map, List.length_map, hl1, hl2]
    · intro pr hpr hmem
      obtain ⟨row, hrowm, hpre⟩ := List.mem_map.mp hpr
      exact (rankRepr_no_slash row '/' (hpre ▸ hmem)) (by simp)
    · intro pr hpr hmem
      obtain ⟨row, hrowm, hpre⟩ := List.mem_map.mp hpr
      exact (rankRepr_no_slash row '/' (hpre ▸ hmem)) (by simp)
    · exact hR
  have hmap1 : ∀ row ∈ b1.matrix, decodeRank (rankRepr row) = rowKC row := by
    intro row hrow
    obtain ⟨r, hri⟩ := List.mem_iff_getElem?.mp hrow
    refine decodeRank_rankRepr row (by rw [hr1 row hrow]) (rowChain row ?_)
    intro c q hc
    have hq := hp1 r row hri c q hc
    rw [hq]
  have hmap2 : ∀ row ∈ b2.matrix, decodeRank (rankRepr row) = rowKC row := by
    intro row hrow
    obtain ⟨r, hri⟩ := List.mem_iff_getElem?.mp hrow
    refine decodeRank_rankRepr row (by rw [hr2 row hrow]) (rowChain row ?_)
    intro c q hc
    have hq := hp2 r row hri c q hc
    rw [hq]
  have hkc : b1.matrixKC = b2.matrixKC := by
    unfold Board.matrixKC
    have e1 : b1.matrix.map rowKC = (b1.matrix.map rankRepr).map decodeRank := by
      rw [List.map_map]
      exact (List.map_congr_left hmap1).symm
    have e2 : b2.matrix.map rowKC = (b2.matrix.map rankRepr).map decodeRank := by
      rw [List.map_map]
      exact (List.map_congr_left hmap2).symm
    rw [e1, e2, hmaps]
  exact ⟨hkc, hturn, hcaseq, hepfin⟩

theorem legalMovesEmpty_ok {g : Game} {v : Bool}
    (h : legalMovesEmpty g = .ok v) :
    ∃ lm, g.legal_moves = .ok lm ∧ decide (lm = []) = v := by
  unfold legalMovesEmpty at h
  cases hg : g.legal_moves with
  | error e =>
    rw [hg] at h
    simp [Except.map] at h
  | ok lm =>
    rw [hg] at h
    simp only [Except.map] at h
    injection h with h
    exact ⟨lm, rfl, h⟩

/-- C6: the termination test runs its four checks in a fixed order with the
first match winning — no legal moves (checkmate with the other side as the
winner when in check, else stalemate), then the 100-halfmove (fifty-move)
rule, then threefold repetition, then insufficient material — and the
position signature used by the repetition test determines the board layout,
the side to move, the castling rights and the en passant target of any
well-formed position. -/
theorem C6_game_over_order :
    (∀ g : Game, legalMovesEmpty g = .ok true →
      g.board.is_check = .ok true → g.board.turn = ['w'] →
      game_over g = .ok (some (.checkmate, some Color.black), g.changeTurn)) ∧
    (∀ g : Game, legalMovesEmpty g = .ok true →
      g.board.is_check = .ok true → g.board.turn = ['b'] →
      game_over g = .ok (some (.checkmate, some Color.white), g.changeTurn)) ∧
    (∀ g : Game, legalMovesEmpty g = .ok true →
      g.board.is_check = .ok false →
      game_over g = .ok (some (.stalemate, none), g)) ∧
    (∀ g : Game, legalMovesEmpty g = .ok false → 100 ≤ g.halfmove →
      game_over g = .ok (some (.fiftyMoveRule, none), g)) ∧
    (∀ g : Game, legalMovesEmpty g = .ok false → g.halfmove < 100 →
      g.board.is_triple_repetition = .ok true →
      game_over g = .ok (some (.threefoldRepetition, none), g)) ∧
    (∀ g : Game, legalMovesEmpty g = .ok false → g.halfmove < 100 →
      g.board.is_triple_repetition = .ok false →
      g.board.is_insufficient_material = true →
      game_over g = .ok (some (.insufficientMaterial, none), g)) ∧
    (∀ g : Game, legalMovesEmpty g = .ok false → g.halfmove < 100 →
      g.board.is_triple_repetition = .ok false →
      g.board.is_insufficient_material = false →
      game_over g = .ok (none, g)) ∧
    (∀ b1 b2 : Board, SigValid b1 = true → SigValid b2 = true →
      b1.sigStr = b2.sigStr →
      b1.matrixKC = b2.matrixKC ∧ b1.turn = b2.turn ∧
        b1.castling = b2.castling ∧ b1.en_passant = b2.en_passant) := by
  refine ⟨?_, ?_, ?_, ?_, ?_, ?_, ?_, fun b1 b2 h1 h2 hs => sigStr_inj h1 h2 hs⟩
  · intro g hlm hchk hturn
    obtain ⟨lm, hg, hv⟩ := legalMovesEmpty_ok hlm
    have hlme : lm = [] := by simpa using hv
    subst hlme
    unfold game_over
    rw [hg, exceptBind_pure, if_pos rfl, hchk, exceptBind_pure, if_pos rfl]
    try dsimp only
    have ht2 : (g.changeTurn).board.turn = ['b'] := by
      show (if g.board.turn = ['b'] then ['w'] else ['b']) = ['b']
      rw [hturn]
      rw [if_neg (by decide)]
    rw [ht2, show colorMap ['b'] = Except.ok Color.black from rfl, exceptBind_pure]
  · intro g hlm hchk hturn
    obtain ⟨lm, hg, hv⟩ := legalMovesEmpty_ok hlm
    have hlme : lm = [] := by simpa using hv
    subst hlme
    unfold game_over
    rw [hg, exceptBind_pure, if_pos rfl, hchk, exceptBind_pure, if_pos rfl]
    try dsimp only
    have ht2 : (g.changeTurn).board.turn = ['w'] := by
      show (if g.board.turn = ['b'] then ['w'] else ['b']) = ['w']
      rw [hturn]
      rw [if_pos rfl]
    rw [ht2, show colorMap ['w'] = Except.ok Color.white from rfl, exceptBind_pure]
  · intro g hlm hchk
    obtain ⟨lm, hg, hv⟩ := legalMovesEmpty_ok hlm
    have hlme : lm = [] := by simpa using hv
    subst hlme
    unfold game_over
    rw [hg, exceptBind_pure, if_pos rfl, hchk, exceptBind_pure,
      if_neg (by decide)]
  · intro g hlm h100
    obtain ⟨lm, hg, hv⟩ := legalMovesEmpty_ok hlm
    have hlme : ¬ lm = [] := by simpa using hv
    unfold game_over
    rw [hg, exceptBind_pure, if_neg hlme, if_pos h100]
  · intro g hlm h100 hrep
    obtain ⟨lm, hg, hv⟩ := legalMovesEmpty_ok hlm
    have hlme : ¬ lm = [] := by simpa using hv
    unfold game_over
    rw [hg, exceptBind_pure, if_neg hlme, if_neg (not_le.mpr h100), hrep,
      exceptBind_pure, if_pos rfl]
  · intro g hlm h100 hrep hmat
    obtain ⟨lm, hg, hv⟩ := legalMovesEmpty_ok hlm
    have hlme : ¬ lm = [] := by simpa using hv
    unfold game_over
    rw [hg, exceptBind_pure, if_neg hlme, if_neg (not_le.mpr h100), hrep,
      exceptBind_pure, if_neg (by decide), hmat, if_pos rfl]
  · intro g hlm h100 hrep hmat
    obtain ⟨lm, hg, hv⟩ := legalMovesEmpty_ok hlm
    have hlme : ¬ lm = [] := by simpa using hv
    unfold game_over
    rw [hg, exceptBind_pure, if_neg hlme, if_neg (not_le.mpr h100), hrep,
      exceptBind_pure, if_neg (by decide), hmat, if_neg (by decide)]

/-- Witness for C6: the fifty-move clause fires on a live position whose
halfmove clock reads 100, and the signature decomposition applied to a
concrete well-formed board. -/
theorem C6_witness :
    game_over fiftyGame = .ok (some (.fiftyMoveRule, none), fiftyGame) ∧
      (noCastleGame.board.matrixKC = noCastleGame.board.matrixKC ∧
        noCastleGame.board.turn = noCastleGame.board.turn ∧
        noCastleGame.board.castling = noCastleGame.board.castling ∧
        noCastleGame.board.en_passant = noCastleGame.board.en_passant) := by
  constructor
  · exact C6_game_over_order.2.2.2.1 fiftyGame rfl (by decide)
  · exact C6_game_over_order.2.2.2.2.2.2.2 noCastleGame.board
      noCastleGame.board rfl rfl rfl

/-! Python index arithmetic at the board boundary. -/

theorem pyIdx_ge {n : Nat} {i : Int} (h : (n : Int) ≤ i) : pyIdx n i = none := by
  unfold pyIdx
  dsimp only
  rw [if_neg (by omega : ¬ i < 0), if_neg (by omega)]

theorem pyIdx_low {n : Nat} {i : Int} (h : i + n < 0) : pyIdx n i = none := by
  unfold pyIdx
  dsimp only
  rw [if_pos (by omega : i < 0), if_neg (by omega)]

theorem pyIdx_neg {n : Nat} {i : Int} (h1 : 0 ≤ i + n) (h2 : i < 0) :
    pyIdx n i = pyIdx n (i + n) := by
  unfold pyIdx
  dsimp only
  rw [if_pos h2, if_neg (by omega : ¬ i + (n : Int) < 0)]

theorem pyGet_ge {α : Type} {l : List α} {i : Int} (h : (l.length : Int) ≤ i) :
    pyGet l i = .error .indexError := by
  unfold pyGet
  rw [pyIdx_ge h]

theorem pyGet_low {α : Type} {l : List α} {i : Int} (h : i + l.length < 0) :
    pyGet l i = .error .indexError := by
  unfold pyGet
  rw [pyIdx_low h]

theorem pyGet_alias {α : Type} {l : List α} {i : Int} (h1 : 0 ≤ i + l.length)
    (h2 : i < 0) : pyGet l i = pyGet l (i + l.length) := by
  unfold pyGet
  rw [pyIdx_neg h1 h2]

theorem getPos_row_ok {b : Board} {q : Pos} (hm : b.matrix.length = 8)
    (h1 : 1 ≤ q.row) (h8 : q.row ≤ 8) :
    ∃ row, pyGet b.matrix (8 - q.row) = .ok row ∧ row ∈ b.matrix := by
  unfold pyGet pyIdx
  rw [hm]
  dsimp only
  rw [if_neg (by omega : ¬ (8 : Int) - q.row < 0), if_pos (by omega)]
  have hlt : ((8 : Int) - q.row).toNat < b.matrix.length := by
    rw [hm]
    omega
  dsimp only
  rw [List.get?_eq_getElem?, List.getElem?_eq_getElem hlt]
  exact ⟨_, rfl, List.getElem_mem hlt⟩

theorem matrix_row_ok {b : Board} {q : Pos} (hm : b.matrix.length = 8)
    (h1 : 1 ≤ q.row) (h8 : q.row ≤ 8) :
    pyIdx b.matrix.length (8 - q.row) = some ((8 : Int) - q.row).toNat ∧
    ∃ row, b.matrix.get? ((8 : Int) - q.row).toNat = some row ∧
      row ∈ b.matrix := by
  constructor
  · unfold pyIdx
    dsimp only
    rw [if_neg (by omega : ¬ (8 : Int) - q.row < 0), if_pos (by rw [hm]; omega)]
  · have hlt : ((8 : Int) - q.row).toNat < b.matrix.length := by
      rw [hm]
      omega
    rw [List.get?_eq_getElem?, List.getElem?_eq_getElem hlt]
    exact ⟨_, rfl, List.getElem_mem hlt⟩

/-- C10, counterexample to the claim as stated: on a concrete 8x8 board, a
position nine columns before `'a'` (column index `-9`) raises `IndexError`
instead of silently aliasing a square, so not every column before `'a'`
aliases; the wrap-around only covers columns `-8` through `-1`. -/
theorem C10_counterexample :
    noCastleGame.board.getPos ⟨-9, 1⟩ = .error .indexError ∧
      (∀ v, noCastleGame.board.getPos ⟨-9, 1⟩ ≠ .ok v) ∧
      noCastleGame.board.getPos ⟨-1, 1⟩ = noCastleGame.board.getPos ⟨7, 1⟩ := by
  refine ⟨rfl, ?_, rfl⟩
  intro v h
  rw [show noCastleGame.board.getPos ⟨-9, 1⟩ = .error .indexError from rfl] at h
  exact Except.noConfusion h

/-- C10, amended: on any 8x8 board and in-range rank, square access raises
`IndexError` for columns at or past index 8 and also below index `-8`, while
columns `-8` through `-1` silently alias the square at column + 8 of the same
rank, for reads, writes and deletes alike; and such off-board positions are
reached by the en passant adjacency check without validation: the a-file
double advance `a4` commits while reading the h-file neighbour (setting a
spurious en passant target behind the pawn), and the h-file double advance
`h4` raises `IndexError`. -/
theorem C10_board_access :
    (∀ (b : Board) (q : Pos), b.matrix.length = 8 →
      (∀ row ∈ b.matrix, row.length = 8) → 1 ≤ q.row → q.row ≤ 8 →
      (8 ≤ q.col → b.getPos q = .error .indexError) ∧
      (q.col ≤ -9 → b.getPos q = .error .indexError) ∧
      (-8 ≤ q.col → q.col ≤ -1 →
        b.getPos q = b.getPos ⟨q.col + 8, q.row⟩)) ∧
    (∀ (b : Board) (q : Pos) (v : Option Piece), b.matrix.length = 8 →
      (∀ row ∈ b.matrix, row.length = 8) → 1 ≤ q.row → q.row ≤ 8 →
      (8 ≤ q.col → b.setPos q v = .error .indexError) ∧
      (q.col ≤ -9 → b.setPos q v = .error .indexError) ∧
      (-8 ≤ q.col → q.col ≤ -1 →
        b.setPos q v = b.setPos ⟨q.col + 8, q.row⟩ v)) ∧
    (∀ (b : Board) (q : Pos), b.matrix.length = 8 →
      (∀ row ∈ b.matrix, row.length = 8) → 1 ≤ q.row → q.row ≤ 8 →
      (8 ≤ q.col → b.delPos q = .error .indexError) ∧
      (q.col ≤ -9 → b.delPos q = .error .indexError) ∧
      (-8 ≤ q.col → q.col ≤ -1 →
        b.delPos q = b.delPos ⟨q.col + 8, q.row⟩)) ∧
    ((StandardGame.move aliasGame ['a', '4']).1 = .ok ∧
      (StandardGame.move aliasGame ['a', '4']).2.board.en_passant
        = some (⟨0, 3⟩ : Pos) ∧
      aliasGame.board.getPos ⟨-1, 4⟩ = aliasGame.board.getPos ⟨7, 4⟩ ∧
      (StandardGame.move startGame ['h', '4']).1 = .err .indexError) := by
  have hset : ∀ (b : Board) (q : Pos) (v : Option Piece), b.matrix.length = 8 →
      (∀ row ∈ b.matrix, row.length = 8) → 1 ≤ q.row → q.row ≤ 8 →
      (8 ≤ q.col → b.setPos q v = .error .indexError) ∧
      (q.col ≤ -9 → b.setPos q v = .error .indexError) ∧
      (-8 ≤ q.col → q.col ≤ -1 →
        b.setPos q v = b.setPos ⟨q.col + 8, q.row⟩ v) := by
    intro b q v hm hrows h1 h8
    obtain ⟨hidx, row, hrow, hmem⟩ := matrix_row_ok hm h1 h8
    have hlen := hrows row hmem
    refine ⟨?_, ?_, ?_⟩
    · intro hc
      unfold Board.setPos
      rw [hidx]
      dsimp only
      rw [hrow]
      dsimp only
      rw [show pyIdx row.length q.col = none from pyIdx_ge (by rw [hlen]; omega)]
    · intro hc
      unfold Board.setPos
      rw [hidx]
      dsimp only
      rw [hrow]
      dsimp only
      rw [show pyIdx row.length q.col = none from pyIdx_low (by rw [hlen]; omega)]
    · intro hn8 hn1
      have halias : pyIdx row.length q.col = pyIdx row.length (q.col + 8) := by
        have hx := pyIdx_neg (n := row.length) (i := q.col)
          (by rw [hlen]; omega) (by omega)
        rw [hx, hlen]
        norm_num
      unfold Board.setPos
      rw [hidx]
      dsimp only
      rw [hrow]
      dsimp only
      rw [halias]
  refine ⟨?_, hset, ?_, rfl, rfl, rfl, rfl⟩
  · intro b q hm hrows h1 h8
    obtain ⟨row, hrow, hmem⟩ := getPos_row_ok hm h1 h8
    have hlen := hrows row hmem
    refine ⟨?_, ?_, ?_⟩
    · intro hc
      unfold Board.getPos
      rw [hrow, exceptBind_pure]
      exact pyGet_ge (by rw [hlen]; omega)
    · intro hc
      unfold Board.getPos
      rw [hrow, exceptBind_pure]
      exact pyGet_low (by rw [hlen]; omega)
    · intro hn8 hn1
      unfold Board.getPos
      rw [hrow, exceptBind_pure]
      have hx := pyGet_alias (l := row) (i := q.col)
        (by rw [hlen]; omega) (by omega)
      rw [hlen] at hx
      rw [exceptBind_pure]
      dsimp only
      simpa using hx
  · intro b q hm hrows h1 h8
    have hx := hset b q none hm hrows h1 h8
    exact hx

/-- Witness for C10: the amended access law applied on a concrete board —
column 9 raises, column `-2` reads the same square as column 6. -/
theorem C10_witness :
    noCastleGame.board.getPos ⟨9, 1⟩ = .error .indexError ∧
      noCastleGame.board.getPos ⟨-2, 1⟩ = noCastleGame.board.getPos ⟨6, 1⟩ :=
  ⟨(C10_board_access.1 noCastleGame.board ⟨9, 1⟩ rfl (by decide) (by decide)
      (by decide)).1 (by decide),
    (C10_board_access.1 noCastleGame.board ⟨-2, 1⟩ rfl (by decide) (by decide)
      (by decide)).2.2 (by decide) (by decide)⟩

end Chess
